import Mathlib

/-!
# Verification of the FOLD frame codec (`fold/core/fractal.py`)

Shallow embedding of the FOLD codec core:

* a payload is a `List Nat` of byte values (each `< 256`);
* Python bit strings (strings of `'0'`/`'1'` characters) are `List Bool`
  (`'1' ↦ true`);
* a frame (numpy array of shape `height × width × 3`) is a flat row-major
  `List (Nat × Nat × Nat)` of pixel channel triples, entry `y*width + x`
  being pixel `(y, x)`;
* fallible Python code (`raise ValueError`, the coercion in
  `fold/core/decoder.py`) is modelled with `Except`.
-/

namespace FOLD

set_option maxRecDepth 100000

/-- A pixel: the three RGB channel values of one cell. -/
abbrev Pixel := Nat × Nat × Nat

/-- A frame, flattened row-major: entry `y*width + x` is pixel `(y, x)`. -/
abbrev Frame := List Pixel

/-! ## Bit strings and Python `format` / `int(·, 2)` -/

/-- Value of a bit string read most-significant-bit first; models
Python `int(s, 2)` on a non-empty string of binary digits. -/
def bitsToNat (l : List Bool) : Nat :=
  l.foldl (fun a b => 2 * a + b.toNat) 0

/-- Fuel-driven core of Python `format(n, 'b')`: peel binary digits of `n`
from the least-significant end onto the accumulator.  `fuel ≥ n` suffices. -/
def natBitsAux : Nat → Nat → List Bool → List Bool
  | 0, _, acc => acc
  | _ + 1, 0, acc => acc
  | fuel + 1, n + 1, acc =>
    natBitsAux fuel ((n + 1) / 2) (decide ((n + 1) % 2 = 1) :: acc)

/-- Python `format(n, 'b')`: binary digits of `n`, most significant first;
`format(0, 'b') = "0"`. -/
def natBits (n : Nat) : List Bool :=
  if n = 0 then [false] else natBitsAux n n []

/-- Python `format(n, '0{w}b')`: binary digits of `n` left-padded with `'0'`
to a minimum width `w` (the result is longer than `w` when `n ≥ 2^w`). -/
def pyFormatBits (n w : Nat) : List Bool :=
  List.replicate (w - (natBits n).length) false ++ natBits n

/-- Spec-side canonical form: the exactly-`w`-bit big-endian representation
of `n`, most significant bit first (`natToBitsBE (w+1) n` starts with bit
`w` of `n`). -/
def natToBitsBE : Nat → Nat → List Bool
  | 0, _ => []
  | w + 1, n => n.testBit w :: natToBitsBE w n

/-! ## CRC-32 (`zlib.crc32`)

The standard reflected CRC-32: polynomial `0xEDB88320`, initial value
`0xFFFFFFFF`, final complement — the algorithm `zlib.crc32` implements. -/

/-- One CRC-32 bit step: shift right, conditionally xor the reflected
polynomial. -/
def crcStep (c : Nat) : Nat :=
  (c / 2) ^^^ (if c % 2 = 1 then 0xEDB88320 else 0)

/-- Eight CRC-32 bit steps (one input byte's worth). -/
def crcStep8 (c : Nat) : Nat :=
  crcStep (crcStep (crcStep (crcStep (crcStep (crcStep (crcStep (crcStep c)))))))

/-- Absorb one byte into the running CRC. -/
def crcUpdateByte (c b : Nat) : Nat := crcStep8 (c ^^^ b)

/-- Run the CRC register over a byte list from state `c`. -/
def crc32Run (c : Nat) (bs : List Nat) : Nat := bs.foldl crcUpdateByte c

/-- `zlib.crc32(bs)`. -/
def crc32 (bs : List Nat) : Nat := crc32Run 0xFFFFFFFF bs ^^^ 0xFFFFFFFF

/-! ## Exceptions

`fractal.py` raises bare `ValueError`s with distinct message strings;
`decoder.py`'s `retrieve` converts them to `FileCorruptionError`. -/

/-- The Python exception kinds reachable in the codec core. -/
inductive PyExc where
  | valueError (msg : String)
  | fileCorruptionError (msg : String)
deriving DecidableEq

instance {α β : Type} [DecidableEq α] [DecidableEq β] :
    DecidableEq (Except α β) := fun a b =>
  match a, b with
  | .error e₁, .error e₂ =>
    match decEq e₁ e₂ with
    | isTrue h => isTrue (by rw [h])
    | isFalse h => isFalse (fun hc => h (Except.error.inj hc))
  | .error _, .ok _ => isFalse (fun hc => Except.noConfusion hc)
  | .ok _, .error _ => isFalse (fun hc => Except.noConfusion hc)
  | .ok v₁, .ok v₂ =>
    match decEq v₁ v₂ with
    | isTrue h => isTrue (by rw [h])
    | isFalse h => isFalse (fun hc => h (Except.ok.inj hc))

/-- Message of the `ValueError` raised by `int("", 2)`. -/
def msgInvalidLiteral : String := "invalid literal for int() with base 2"

/-- `raise ValueError("Invalid FOLD file format")`. -/
def msgInvalidFormat : String := "Invalid FOLD file format"

/-- `raise ValueError("Incomplete data")`. -/
def msgIncomplete : String := "Incomplete data"

/-- `raise ValueError("Data corruption detected - checksum mismatch")`. -/
def msgChecksum : String := "Data corruption detected - checksum mismatch"

/-- Python `int(s, 2)`: fails on the empty string, otherwise the value of
the binary digits. -/
def pyIntBin (s : List Bool) : Except PyExc Nat :=
  if s.isEmpty then .error (.valueError msgInvalidLiteral)
  else .ok (bitsToNat s)

/-! ## `FractalEncoder._prepare_bit_string` -/

/-- `FractalEncoder._prepare_bit_string` (fractal.py lines 56–71):
`MAGIC + LENGTH + CHECKSUM + DATA`, where the magic bits come from
`format(ord(c), '08b')` for `c` in `"FOLD"` (`ord` values 70, 79, 76, 68),
the length and checksum use `format(·, '032b')`, and each payload byte
contributes `format(b, '08b')`. -/
def prepare_bit_string (data : List Nat) : List Bool :=
  let checksum := crc32 data
  let magic_bits :=
    pyFormatBits 70 8 ++ pyFormatBits 79 8 ++ pyFormatBits 76 8 ++ pyFormatBits 68 8
  let length_bits := pyFormatBits data.length 32
  let checksum_bits := pyFormatBits checksum 32
  let data_bits := data.flatMap (fun b => pyFormatBits b 8)
  magic_bits ++ length_bits ++ checksum_bits ++ data_bits

/-! ## Frame construction (`_bits_to_fractal_frame`) -/

/-- Channel value written for one bit: `255 if bit == '1' else 0`. -/
def bitChannel (b : Bool) : Nat := if b then 255 else 0

/-- The pixel-filling loop of `_bits_to_fractal_frame` (lines 113–131):
`n` pixels are produced; while `bit_index + 2 < len(padded_bits)` a pixel
takes three consecutive bits (cursor advances by 3), otherwise the pixel
is black and the cursor stays. -/
def buildPixels (padded : List Bool) (bi : Nat) : Nat → List Pixel
  | 0 => []
  | n + 1 =>
    if bi + 2 < padded.length then
      (bitChannel (padded.getD bi false),
       bitChannel (padded.getD (bi + 1) false),
       bitChannel (padded.getD (bi + 2) false)) :: buildPixels padded (bi + 3) n
    else
      (0, 0, 0) :: buildPixels padded bi n

/-- `FractalEncoder._bits_to_fractal_frame` (lines 106–134): right-pad the
chunk with `'0'` to `width*height*3` bits (`str.ljust`), then fill the
`width*height` pixels row-major, three bits per pixel. -/
def bits_to_fractal_frame (w h : Nat) (bs : List Bool) : Frame :=
  let total := w * h * 3
  let padded := bs ++ List.replicate (total - bs.length) false
  buildPixels padded 0 (w * h)

/-! ## Chunking (`encode_data_to_pixels`) -/

/-- Fuel-driven chunking; `fuel ≥ l.length` suffices when `1 ≤ c`. -/
def chunkListAux : Nat → Nat → List Bool → List (List Bool)
  | 0, _, _ => []
  | _ + 1, _, [] => []
  | fuel + 1, c, l => l.take c :: chunkListAux fuel c (l.drop c)

/-- The chunking loop `for i in range(0, len(bit_string), bits_per_frame)`
of `encode_data_to_pixels` (lines 33–36): consecutive slices of `c` bits
(the last one shorter when `c` does not divide the length).  Python raises
on step `0`; the `c = 0` case is an unreachable guard. -/
def chunkList (c : Nat) (l : List Bool) : List (List Bool) :=
  if c = 0 then [] else chunkListAux l.length c l

/-- `FractalEncoder.encode_data_to_pixels` (lines 17–36), with the
generator materialized as a list (the claims apply `list(...)` to it). -/
def encode_data_to_pixels (w h : Nat) (data : List Nat) : List Frame :=
  let bit_string := prepare_bit_string data
  let bits_per_frame := w * h * 3
  (chunkList bits_per_frame bit_string).map (bits_to_fractal_frame w h)

/-! ## Frame reading (`_fractal_frame_to_bits`) -/

/-- The three threshold bits recovered from one pixel:
`'1' if channel >= 128 else '0'`, each channel independently. -/
def pixBits (pix : Pixel) : List Bool :=
  [decide (128 ≤ pix.1), decide (128 ≤ pix.2.1), decide (128 ≤ pix.2.2)]

/-- `FractalEncoder._fractal_frame_to_bits` (lines 136–151): visit cells
`(y, x)` in row-major order, appending the three threshold bits of each
cell.  The accumulating string concatenation is rendered as nested
`flatMap`; `frame[y, x]` is entry `y*w + x` of the flat frame. -/
def fractal_frame_to_bits (w h : Nat) (frame : Frame) : List Bool :=
  (List.range h).flatMap (fun y =>
    (List.range w).flatMap (fun x =>
      pixBits (frame.getD (y * w + x) (0, 0, 0))))

/-! ## Parsing (`_parse_bit_string`) and decoding -/

/-- The byte-reassembly loop
`bytes(int(actual_data_bits[i:i+8], 2) for i in range(0, len, 8))`
(line 96).  In the codec the argument length is always a multiple of 8,
so every 8-bit slice is non-empty and `int` cannot fail. -/
def bitsToBytesAux : Nat → List Bool → List Nat
  | 0, _ => []
  | _ + 1, [] => []
  | fuel + 1, l => bitsToNat (l.take 8) :: bitsToBytesAux fuel (l.drop 8)

/-- See `bitsToBytesAux`. -/
def bitsToBytes (l : List Bool) : List Nat := bitsToBytesAux l.length l

/-- `FractalEncoder._parse_bit_string` (lines 73–104).  The four magic
bytes are converted with `int(·, 2)` before the `magic != "FOLD"`
comparison (`chr` codes 70, 79, 76, 68 spell `"FOLD"`); then the length
is read, the available data bits are checked, the payload bytes are
rebuilt, and finally the CRC-32 of the rebuilt bytes is compared with the
stored checksum field. -/
def parse_bit_string (bs : List Bool) : Except PyExc (List Nat) := do
  let magic_bits := bs.take 32
  let length_bits := (bs.drop 32).take 32
  let checksum_bits := (bs.drop 64).take 32
  let data_bits := bs.drop 96
  let m0 ← pyIntBin (magic_bits.take 8)
  let m1 ← pyIntBin ((magic_bits.drop 8).take 8)
  let m2 ← pyIntBin ((magic_bits.drop 16).take 8)
  let m3 ← pyIntBin ((magic_bits.drop 24).take 8)
  if ¬(m0 = 70 ∧ m1 = 79 ∧ m2 = 76 ∧ m3 = 68) then
    throw (.valueError msgInvalidFormat)
  else do
    let length ← pyIntBin length_bits
    let expected_data_bits := length * 8
    if data_bits.length < expected_data_bits then
      throw (.valueError msgIncomplete)
    else do
      let actual_data_bits := data_bits.take expected_data_bits
      let data_bytes := bitsToBytes actual_data_bits
      let calculated_checksum := crc32 data_bytes
      let expected_checksum ← pyIntBin checksum_bits
      if calculated_checksum ≠ expected_checksum then
        throw (.valueError msgChecksum)
      else
        pure data_bytes

/-- The bit-accumulation loop of `decode_pixels_to_data` (lines 47–52):
concatenate the bits of every frame in input order. -/
def decode_bits (w h : Nat) (frames : List Frame) : List Bool :=
  frames.flatMap (fractal_frame_to_bits w h)

/-- `FractalEncoder.decode_pixels_to_data` (lines 38–54). -/
def decode_pixels_to_data (w h : Nat) (frames : List Frame) :
    Except PyExc (List Nat) :=
  parse_bit_string (decode_bits w h frames)

/-! ## Tampering model (single-channel corruption of encoded frames) -/

/-- Read channel `ch` (0 = R, 1 = G, 2 = B) of a pixel. -/
def getChan : Pixel → Nat → Nat
  | (r, _, _), 0 => r
  | (_, g, _), 1 => g
  | (_, _, b), _ + 2 => b

/-- Overwrite channel `ch` of a pixel with value `v`. -/
def updatePix : Pixel → Nat → Nat → Pixel
  | (_, g, b), 0, v => (v, g, b)
  | (r, _, b), 1, v => (r, v, b)
  | (r, g, _), _ + 2, v => (r, g, v)

/-- `frames[f][y][x][ch] = v` for `k = y*width + x`: overwrite one channel
value of one cell of one frame. -/
def setChannel (frames : List Frame) (f k ch v : Nat) : List Frame :=
  frames.set f
    ((frames.getD f []).set k
      (updatePix ((frames.getD f []).getD k (0, 0, 0)) ch v))

/-- The frame-decoding portion of `retrieve` (decoder.py lines 45–60):
an empty frame list raises `FileCorruptionError("No frames found in
video")`; a `ValueError` from the codec is re-raised as
`FileCorruptionError("Data corruption detected: " + msg)`.  Reading the
video file itself is the out-of-scope storage collaborator; the frame
dimensions are those of the supplied frames. -/
def retrieve (w h : Nat) (frames : List Frame) : Except PyExc (List Nat) :=
  if frames.isEmpty then
    .error (.fileCorruptionError "No frames found in video")
  else
    match decode_pixels_to_data w h frames with
    | .ok d => .ok d
    | .error (.valueError m) =>
        .error (.fileCorruptionError ("Data corruption detected: " ++ m))
    | .error e => .error e

/-! ## Values of bit strings -/

theorem bitsToNat_foldl (l : List Bool) (a : Nat) :
    l.foldl (fun a b => 2 * a + b.toNat) a = a * 2 ^ l.length + bitsToNat l := by
  induction l generalizing a with
  | nil => simp [bitsToNat]
  | cons x xs ih =>
    have hx : bitsToNat (x :: xs) = x.toNat * 2 ^ xs.length + bitsToNat xs := by
      show xs.foldl _ (2 * 0 + x.toNat) = _
      rw [ih]; ring
    simp only [List.foldl_cons, List.length_cons]
    rw [ih, hx]; ring

theorem bitsToNat_cons (x : Bool) (xs : List Bool) :
    bitsToNat (x :: xs) = x.toNat * 2 ^ xs.length + bitsToNat xs := by
  show xs.foldl _ (2 * 0 + x.toNat) = _
  rw [bitsToNat_foldl]; ring

theorem bitsToNat_append (l₁ l₂ : List Bool) :
    bitsToNat (l₁ ++ l₂) = bitsToNat l₁ * 2 ^ l₂.length + bitsToNat l₂ := by
  show (l₁ ++ l₂).foldl _ 0 = _
  rw [List.foldl_append, bitsToNat_foldl]
  rfl

theorem bitsToNat_lt (l : List Bool) : bitsToNat l < 2 ^ l.length := by
  induction l with
  | nil => simp [bitsToNat]
  | cons x xs ih =>
    rw [bitsToNat_cons, List.length_cons, pow_succ]
    have : x.toNat ≤ 1 := Bool.toNat_le x
    nlinarith

theorem bitsToNat_replicate_false (k : Nat) :
    bitsToNat (List.replicate k false) = 0 := by
  induction k with
  | zero => simp [bitsToNat]
  | succ k ih => rw [List.replicate_succ, bitsToNat_cons, ih]; simp

theorem bitsToNat_replicate_append (k : Nat) (l : List Bool) :
    bitsToNat (List.replicate k false ++ l) = bitsToNat l := by
  rw [bitsToNat_append, bitsToNat_replicate_false]; ring

/-! ## `natBits` / `pyFormatBits` -/

theorem natBitsAux_val :
    ∀ n fuel acc, n ≤ fuel →
      bitsToNat (natBitsAux fuel n acc) = n * 2 ^ acc.length + bitsToNat acc := by
  intro n
  induction n using Nat.strong_induction_on with
  | _ n ih =>
    intro fuel acc hfuel
    match n, fuel with
    | 0, 0 => simp [natBitsAux]
    | 0, fuel + 1 => simp [natBitsAux]
    | n + 1, fuel + 1 =>
      show bitsToNat (natBitsAux fuel ((n + 1) / 2)
          (decide ((n + 1) % 2 = 1) :: acc)) = _
      rw [ih ((n + 1) / 2) (by omega) fuel _ (by omega), bitsToNat_cons]
      have h2 : (decide ((n + 1) % 2 = 1)).toNat = (n + 1) % 2 := by
        rcases Nat.mod_two_eq_zero_or_one (n + 1) with h | h <;> simp [h]
      have hd : 2 * ((n + 1) / 2) + (n + 1) % 2 = n + 1 := by omega
      rw [h2, List.length_cons]
      conv_rhs => rw [← hd]
      ring

theorem natBitsAux_length :
    ∀ n fuel acc w, n ≤ fuel → n < 2 ^ w →
      (natBitsAux fuel n acc).length ≤ w + acc.length := by
  intro n
  induction n using Nat.strong_induction_on with
  | _ n ih =>
    intro fuel acc w hfuel hw
    match n, fuel with
    | 0, 0 => simp [natBitsAux]
    | 0, fuel + 1 => simp [natBitsAux]
    | n + 1, fuel + 1 =>
      match w with
      | 0 => omega
      | w + 1 =>
        show (natBitsAux fuel ((n + 1) / 2)
            (decide ((n + 1) % 2 = 1) :: acc)).length ≤ _
        have hlt : (n + 1) / 2 < 2 ^ w := by
          rw [Nat.div_lt_iff_lt_mul (by omega)]
          rw [pow_succ] at hw; omega
        have := ih ((n + 1) / 2) (by omega) fuel
          (decide ((n + 1) % 2 = 1) :: acc) w (by omega) hlt
        simp only [List.length_cons] at this ⊢
        omega

theorem natBitsAux_length_ge :
    ∀ n fuel acc, acc.length ≤ (natBitsAux fuel n acc).length := by
  intro n
  induction n using Nat.strong_induction_on with
  | _ n ih =>
    intro fuel acc
    match n, fuel with
    | 0, 0 => simp [natBitsAux]
    | 0, fuel + 1 => simp [natBitsAux]
    | n + 1, 0 => simp [natBitsAux]
    | n + 1, fuel + 1 =>
      show _ ≤ (natBitsAux fuel ((n + 1) / 2)
          (decide ((n + 1) % 2 = 1) :: acc)).length
      have := ih ((n + 1) / 2) (by omega) fuel
        (decide ((n + 1) % 2 = 1) :: acc)
      simp only [List.length_cons] at this
      omega

theorem bitsToNat_natBits (n : Nat) : bitsToNat (natBits n) = n := by
  unfold natBits
  by_cases h : n = 0
  · simp [h, bitsToNat]
  · rw [if_neg h, natBitsAux_val n n [] (le_refl n)]
    simp [bitsToNat]

theorem natBits_length_le {n w : Nat} (hn : n < 2 ^ w) (hw : 1 ≤ w) :
    (natBits n).length ≤ w := by
  unfold natBits
  by_cases h : n = 0
  · simp [h]; omega
  · rw [if_neg h]
    simpa using natBitsAux_length n n [] w (le_refl n) hn

theorem natBits_length_pos (n : Nat) : 1 ≤ (natBits n).length := by
  unfold natBits
  by_cases h : n = 0
  · simp [h]
  · rw [if_neg h]
    obtain ⟨m, rfl⟩ : ∃ m, n = m + 1 := ⟨n - 1, by omega⟩
    show 1 ≤ (natBitsAux (m + 1) (m + 1) []).length
    have h1 : natBitsAux (m + 1) (m + 1) [] =
        natBitsAux m ((m + 1) / 2) [decide ((m + 1) % 2 = 1)] := rfl
    rw [h1]
    have := natBitsAux_length_ge ((m + 1) / 2) m [decide ((m + 1) % 2 = 1)]
    simpa using this

theorem bitsToNat_pyFormatBits (n w : Nat) :
    bitsToNat (pyFormatBits n w) = n := by
  rw [pyFormatBits, bitsToNat_replicate_append, bitsToNat_natBits]

theorem pyFormatBits_length {n w : Nat} (hn : n < 2 ^ w) (hw : 1 ≤ w) :
    (pyFormatBits n w).length = w := by
  have h1 := natBits_length_le hn hw
  simp only [pyFormatBits, List.length_append, List.length_replicate]
  omega

theorem pyFormatBits_ne_nil (n w : Nat) : pyFormatBits n w ≠ [] := by
  have h1 := natBits_length_pos n
  intro h
  have := congrArg List.length h
  simp only [pyFormatBits, List.length_append, List.length_replicate,
    List.length_nil] at this
  omega

theorem pyIntBin_pyFormatBits (n w : Nat) :
    pyIntBin (pyFormatBits n w) = .ok n := by
  rw [pyIntBin, if_neg, bitsToNat_pyFormatBits]
  simpa [List.isEmpty_iff] using pyFormatBits_ne_nil n w

/-! ## `natToBitsBE` and injectivity of `bitsToNat` on fixed widths -/

theorem natToBitsBE_length (w n : Nat) : (natToBitsBE w n).length = w := by
  induction w generalizing n with
  | zero => simp [natToBitsBE]
  | succ w ih => simp [natToBitsBE, ih]

theorem bitsToNat_natToBitsBE (w n : Nat) :
    bitsToNat (natToBitsBE w n) = n % 2 ^ w := by
  induction w generalizing n with
  | zero => simp [natToBitsBE, bitsToNat]; omega
  | succ w ih =>
    rw [natToBitsBE, bitsToNat_cons, natToBitsBE_length, ih]
    have ht : (n.testBit w).toNat = n / 2 ^ w % 2 := by
      rw [Nat.testBit_to_div_mod]
      rcases Nat.mod_two_eq_zero_or_one (n / 2 ^ w) with h | h <;> simp [h]
    rw [ht, pow_succ, Nat.mod_mul]
    ring

theorem natToBitsBE_mod (w n : Nat) :
    natToBitsBE w (n % 2 ^ w) = natToBitsBE w n := by
  induction w generalizing n with
  | zero => simp [natToBitsBE]
  | succ w ih =>
    rw [natToBitsBE, natToBitsBE]
    congr 1
    · rw [Nat.testBit_mod_two_pow]
      simp
    · calc natToBitsBE w (n % 2 ^ (w + 1))
          = natToBitsBE w (n % 2 ^ (w + 1) % 2 ^ w) := (ih _).symm
        _ = natToBitsBE w (n % 2 ^ w) := by
            rw [Nat.mod_mod_of_dvd _ (pow_dvd_pow 2 (by omega))]
        _ = natToBitsBE w n := ih n

theorem natToBitsBE_bitsToNat (l : List Bool) :
    natToBitsBE l.length (bitsToNat l) = l := by
  induction l with
  | nil => simp [natToBitsBE]
  | cons x xs ih =>
    rw [List.length_cons, natToBitsBE, bitsToNat_cons]
    have hlt := bitsToNat_lt xs
    have hdiv : (x.toNat * 2 ^ xs.length + bitsToNat xs) / 2 ^ xs.length
        = x.toNat := by
      rw [mul_comm, Nat.mul_add_div (Nat.pos_pow_of_pos _ (by omega))]
      rw [Nat.div_eq_of_lt hlt]; ring
    congr 1
    · rw [Nat.testBit_to_div_mod, hdiv]
      cases x <;> simp
    · have hmod : (x.toNat * 2 ^ xs.length + bitsToNat xs) % 2 ^ xs.length
          = bitsToNat xs := by
        rw [Nat.add_mod, Nat.mul_mod_left]
        simp [Nat.mod_eq_of_lt hlt]
      rw [← natToBitsBE_mod, hmod, ih]

theorem bitsToNat_inj {l₁ l₂ : List Bool} (hlen : l₁.length = l₂.length)
    (hval : bitsToNat l₁ = bitsToNat l₂) : l₁ = l₂ := by
  have h1 := natToBitsBE_bitsToNat l₁
  have h2 := natToBitsBE_bitsToNat l₂
  rw [← h1, ← h2, hlen, hval]

theorem pyFormatBits_eq_natToBitsBE {n w : Nat} (hn : n < 2 ^ w)
    (hw : 1 ≤ w) : pyFormatBits n w = natToBitsBE w n := by
  have h1 : pyFormatBits n w
      = natToBitsBE (pyFormatBits n w).length (bitsToNat (pyFormatBits n w)) :=
    (natToBitsBE_bitsToNat _).symm
  rw [h1, pyFormatBits_length hn hw, bitsToNat_pyFormatBits]

/-! ## Small list helpers -/

theorem getD_eq_getElem' {α : Type} (l : List α) (n : Nat) (d : α)
    (h : n < l.length) : l.getD n d = l[n] := by
  simp [List.getD_eq_getElem?_getD, List.getElem?_eq_getElem h]

theorem take_add' {α : Type} :
    ∀ (l : List α) (m n : Nat), l.take (m + n) = l.take m ++ (l.drop m).take n := by
  intro l
  induction l with
  | nil => intro m n; simp
  | cons x xs ih =>
    intro m n
    match m with
    | 0 => simp
    | m + 1 =>
      have : m + 1 + n = (m + n) + 1 := by omega
      rw [this, List.take_succ_cons, ih, List.take_succ_cons, List.drop_succ_cons,
        List.cons_append]

theorem drop_cons_getD {α : Type} (l : List α) (n : Nat) (d : α)
    (h : n < l.length) : l.drop n = l.getD n d :: l.drop (n + 1) := by
  rw [getD_eq_getElem' l n d h]
  exact List.drop_eq_getElem_cons h

/-! ## Chunking lemmas -/

theorem chunkListAux_congr :
    ∀ fuel₁ fuel₂ c (l : List Bool), c ≠ 0 →
      l.length ≤ fuel₁ → l.length ≤ fuel₂ →
      chunkListAux fuel₁ c l = chunkListAux fuel₂ c l := by
  intro fuel₁
  induction fuel₁ with
  | zero =>
    intro fuel₂ c l _ h1 _
    have hl : l = [] := List.eq_nil_of_length_eq_zero (by omega)
    subst hl; cases fuel₂ <;> simp [chunkListAux]
  | succ f ih =>
    intro fuel₂ c l hc h1 h2
    match l, fuel₂ with
    | [], 0 => simp [chunkListAux]
    | [], fuel₂ + 1 => simp [chunkListAux]
    | x :: xs, 0 => simp at h2
    | x :: xs, fuel₂ + 1 =>
      show (x :: xs).take c :: chunkListAux f c ((x :: xs).drop c)
          = (x :: xs).take c :: chunkListAux fuel₂ c ((x :: xs).drop c)
      congr 1
      apply ih fuel₂ c ((x :: xs).drop c) hc <;>
        simp only [List.length_drop] <;> simp at h1 h2 ⊢ <;> omega

theorem chunkList_nil (c : Nat) : chunkList c [] = [] := by
  by_cases h : c = 0 <;> simp [chunkList, chunkListAux, h]

theorem chunkList_cons {c : Nat} (hc : c ≠ 0) {l : List Bool} (hl : l ≠ []) :
    chunkList c l = l.take c :: chunkList c (l.drop c) := by
  unfold chunkList
  rw [if_neg hc, if_neg hc]
  obtain ⟨x, xs, rfl⟩ := List.exists_cons_of_ne_nil hl
  have h1 : chunkListAux (x :: xs).length c (x :: xs)
      = (x :: xs).take c :: chunkListAux xs.length c ((x :: xs).drop c) := rfl
  rw [h1]
  congr 1
  apply chunkListAux_congr _ _ c _ hc <;>
    · simp only [List.length_drop, List.length_cons]; omega

theorem chunkList_mem {c : Nat} (hc : c ≠ 0) :
    ∀ (n : Nat) (l : List Bool), l.length ≤ n →
      ∀ ch ∈ chunkList c l, ch.length ≤ c ∧ ch ≠ [] := by
  intro n
  induction n with
  | zero =>
    intro l hl ch hch
    have : l = [] := List.eq_nil_of_length_eq_zero (by omega)
    subst this; rw [chunkList_nil] at hch; simp at hch
  | succ n ih =>
    intro l hl ch hch
    by_cases hnil : l = []
    · subst hnil; rw [chunkList_nil] at hch; simp at hch
    · rw [chunkList_cons hc hnil] at hch
      rcases List.mem_cons.mp hch with rfl | h
      · have hpos : 0 < l.length := List.length_pos.mpr hnil
        constructor
        · simp [List.length_take]
        · apply List.length_pos.mp
          rw [List.length_take]
          exact Nat.lt_min.mpr ⟨by omega, hpos⟩
      · exact ih (l.drop c) (by simp only [List.length_drop]; omega) ch h

theorem chunkList_length_eq {c : Nat} (hc : c ≠ 0) :
    ∀ (n : Nat) (l : List Bool), l.length ≤ n → l ≠ [] →
      (chunkList c l).length = (l.length + c - 1) / c := by
  intro n
  induction n with
  | zero =>
    intro l hl hnil
    exact absurd (List.eq_nil_of_length_eq_zero (by omega)) hnil
  | succ n ih =>
    intro l hl hnil
    have hpos : 0 < l.length := List.length_pos.mpr hnil
    rw [chunkList_cons hc hnil]
    by_cases hlc : l.length ≤ c
    · have hdrop : l.drop c = [] := List.drop_eq_nil_of_le hlc
      rw [hdrop, chunkList_nil]
      have h1 : l.length + c - 1 = (l.length - 1) + c := by omega
      rw [h1, Nat.add_div_right _ (by omega), Nat.div_eq_of_lt (by omega)]
      simp
    · have hdnil : l.drop c ≠ [] := by
        intro h
        rw [List.drop_eq_nil_iff] at h
        omega
      rw [List.length_cons,
        ih (l.drop c) (by simp only [List.length_drop]; omega) hdnil]
      simp only [List.length_drop]
      have h1 : l.length + c - 1 = (l.length - 1) + c := by omega
      have h2 : l.length - c + c - 1 = l.length - 1 := by omega
      rw [h1, h2, Nat.add_div_right _ (by omega)]

theorem chunkList_le_mul {c : Nat} (hc : c ≠ 0) :
    ∀ (n : Nat) (l : List Bool), l.length ≤ n →
      l.length ≤ (chunkList c l).length * c := by
  intro n
  induction n with
  | zero =>
    intro l hl
    have : l = [] := List.eq_nil_of_length_eq_zero (by omega)
    subst this; simp
  | succ n ih =>
    intro l hl
    by_cases hnil : l = []
    · subst hnil; simp
    · rw [chunkList_cons hc hnil, List.length_cons]
      have := ih (l.drop c) (by simp only [List.length_drop]; omega)
      simp only [List.length_drop] at this
      rw [Nat.succ_mul]
      omega

theorem chunkList_pred_mul_lt {c : Nat} (hc : c ≠ 0) :
    ∀ (n : Nat) (l : List Bool), l.length ≤ n → l ≠ [] →
      ((chunkList c l).length - 1) * c < l.length := by
  intro n
  induction n with
  | zero =>
    intro l hl hnil
    exact absurd (List.eq_nil_of_length_eq_zero (by omega)) hnil
  | succ n ih =>
    intro l hl hnil
    have hpos : 0 < l.length := List.length_pos.mpr hnil
    rw [chunkList_cons hc hnil, List.length_cons]
    by_cases hlc : l.length ≤ c
    · have hdrop : l.drop c = [] := List.drop_eq_nil_of_le hlc
      rw [hdrop, chunkList_nil]
      simpa using hpos
    · have hdnil : l.drop c ≠ [] := by
        intro h; rw [List.drop_eq_nil_iff] at h; omega
      have hrec := ih (l.drop c) (by simp only [List.length_drop]; omega) hdnil
      simp only [List.length_drop] at hrec
      have hMpos : 0 < (chunkList c (l.drop c)).length := by
        rw [chunkList_cons hc hdnil]; simp
      obtain ⟨M, hM⟩ : ∃ M, (chunkList c (l.drop c)).length = M + 1 :=
        ⟨(chunkList c (l.drop c)).length - 1, by omega⟩
      rw [hM] at hrec ⊢
      simp only [Nat.add_sub_cancel] at hrec ⊢
      rw [Nat.succ_mul]
      omega

theorem chunkList_padded_join {c : Nat} (hc : c ≠ 0) :
    ∀ (n : Nat) (l : List Bool), l.length ≤ n →
      (chunkList c l).flatMap
          (fun ch => ch ++ List.replicate (c - ch.length) false)
        = l ++ List.replicate ((chunkList c l).length * c - l.length) false := by
  intro n
  induction n with
  | zero =>
    intro l hl
    have : l = [] := List.eq_nil_of_length_eq_zero (by omega)
    subst this; simp [chunkList_nil]
  | succ n ih =>
    intro l hl
    by_cases hnil : l = []
    · subst hnil; simp [chunkList_nil]
    · have hpos : 0 < l.length := List.length_pos.mpr hnil
      rw [chunkList_cons hc hnil]
      by_cases hlc : l.length ≤ c
      · have hdrop : l.drop c = [] := List.drop_eq_nil_of_le hlc
        rw [hdrop, chunkList_nil]
        rw [List.take_of_length_le hlc]
        simp
      · have htake : (l.take c).length = c := by
          simp [List.length_take]; omega
        have hrec := ih (l.drop c) (by simp only [List.length_drop]; omega)
        rw [List.flatMap_cons, htake, Nat.sub_self, List.replicate_zero,
          List.append_nil, hrec]
        simp only [List.length_drop, List.length_cons]
        rw [← List.append_assoc, List.take_append_drop]
        congr 2
        rw [Nat.succ_mul]
        omega

theorem chunkList_dropLast_join {c : Nat} (hc : c ≠ 0) :
    ∀ (n : Nat) (l : List Bool), l.length ≤ n →
      ((chunkList c l).dropLast).flatMap
          (fun ch => ch ++ List.replicate (c - ch.length) false)
        = l.take (((chunkList c l).length - 1) * c) := by
  intro n
  induction n with
  | zero =>
    intro l hl
    have : l = [] := List.eq_nil_of_length_eq_zero (by omega)
    subst this; simp [chunkList_nil]
  | succ n ih =>
    intro l hl
    by_cases hnil : l = []
    · subst hnil; simp [chunkList_nil]
    · rw [chunkList_cons hc hnil]
      by_cases hlc : l.length ≤ c
      · have hdrop : l.drop c = [] := List.drop_eq_nil_of_le hlc
        rw [hdrop, chunkList_nil]
        simp
      · have hdnil : l.drop c ≠ [] := by
          intro h; rw [List.drop_eq_nil_iff] at h; omega
        have hpos : 0 < l.length := List.length_pos.mpr hnil
        have hne : chunkList c (l.drop c) ≠ [] := by
          rw [chunkList_cons hc hdnil]; simp
        obtain ⟨r, rs, hr⟩ := List.exists_cons_of_ne_nil hne
        have htake : (l.take c).length = c := by
          simp [List.length_take]; omega
        have hrec := ih (l.drop c) (by simp only [List.length_drop]; omega)
        rw [hr] at hrec ⊢
        rw [List.dropLast_cons₂, List.flatMap_cons, htake, Nat.sub_self,
          List.replicate_zero, List.append_nil, hrec]
        simp only [List.length_cons, List.length_drop, Nat.add_sub_cancel]
        rw [Nat.succ_mul, Nat.add_comm (rs.length * c) c, take_add']

/-! ## Frame construction and reading -/

theorem flatMap_congr' {α β : Type} {l : List α} {f g : α → List β}
    (h : ∀ x ∈ l, f x = g x) : l.flatMap f = l.flatMap g := by
  induction l with
  | nil => simp
  | cons x xs ih =>
    rw [List.flatMap_cons, List.flatMap_cons, h x (by simp),
      ih (fun y hy => h y (by simp [hy]))]

theorem buildPixels_length (padded : List Bool) :
    ∀ (n bi : Nat), (buildPixels padded bi n).length = n := by
  intro n
  induction n with
  | zero => intro bi; simp [buildPixels]
  | succ n ih =>
    intro bi
    by_cases h : bi + 2 < padded.length <;> simp [buildPixels, h, ih]

theorem pixBits_bitChannel (a b c : Bool) :
    pixBits (bitChannel a, bitChannel b, bitChannel c) = [a, b, c] := by
  cases a <;> cases b <;> cases c <;> rfl

theorem buildPixels_flatMap (padded : List Bool) :
    ∀ (n bi : Nat), bi + 3 * n ≤ padded.length →
      (buildPixels padded bi n).flatMap pixBits
        = (padded.drop bi).take (3 * n) := by
  intro n
  induction n with
  | zero => intro bi _; simp [buildPixels]
  | succ n ih =>
    intro bi h
    have hcond : bi + 2 < padded.length := by omega
    rw [buildPixels, if_pos hcond, List.flatMap_cons, pixBits_bitChannel,
      ih (bi + 3) (by omega)]
    have d0 : padded.drop bi = padded.getD bi false :: padded.drop (bi + 1) :=
      drop_cons_getD _ _ _ (by omega)
    have d1 : padded.drop (bi + 1)
        = padded.getD (bi + 1) false :: padded.drop (bi + 2) :=
      drop_cons_getD _ _ _ (by omega)
    have d2 : padded.drop (bi + 2)
        = padded.getD (bi + 2) false :: padded.drop (bi + 3) :=
      drop_cons_getD _ _ _ (by omega)
    rw [d0, d1, d2, show 3 * (n + 1) = 3 * n + 1 + 1 + 1 from by ring]
    simp [List.take_succ_cons]

theorem range_flatMap_getD {α β : Type} (l : List α) (g : α → List β) (d : α) :
    (List.range l.length).flatMap (fun k => g (l.getD k d)) = l.flatMap g := by
  induction l with
  | nil => simp
  | cons x xs ih =>
    rw [List.length_cons, List.range_succ_eq_map, List.flatMap_cons,
      List.flatMap_map, List.flatMap_cons]
    congr 1

theorem range_mul_flatMap {β : Type} (h w : Nat) (g : Nat → List β) :
    (List.range h).flatMap
        (fun y => (List.range w).flatMap (fun x => g (y * w + x)))
      = (List.range (h * w)).flatMap g := by
  induction h with
  | zero => simp
  | succ h ih =>
    rw [List.range_succ, List.flatMap_append, ih,
      show (h + 1) * w = h * w + w from by ring, List.range_add,
      List.flatMap_append, List.flatMap_map]
    congr 1
    simp [Function.comp]

theorem fractal_frame_to_bits_eq (w h : Nat) (frame : Frame)
    (hlen : frame.length = w * h) :
    fractal_frame_to_bits w h frame = frame.flatMap pixBits := by
  unfold fractal_frame_to_bits
  rw [range_mul_flatMap h w (fun k => pixBits (frame.getD k (0, 0, 0))),
    show h * w = frame.length from by rw [hlen]; ring]
  exact range_flatMap_getD frame pixBits (0, 0, 0)

theorem flatMap_pixBits_length (l : List Pixel) :
    (l.flatMap pixBits).length = 3 * l.length := by
  induction l with
  | nil => simp
  | cons x xs ih => rw [List.flatMap_cons]; simp [pixBits, ih]; ring

theorem bits_to_fractal_frame_length (w h : Nat) (ch : List Bool) :
    (bits_to_fractal_frame w h ch).length = w * h :=
  buildPixels_length _ _ _

theorem frame_roundtrip (w h : Nat) (ch : List Bool)
    (hch : ch.length ≤ w * h * 3) :
    fractal_frame_to_bits w h (bits_to_fractal_frame w h ch)
      = ch ++ List.replicate (w * h * 3 - ch.length) false := by
  have hbtf : bits_to_fractal_frame w h ch
      = buildPixels (ch ++ List.replicate (w * h * 3 - ch.length) false) 0
          (w * h) := rfl
  have hplen : (ch ++ List.replicate (w * h * 3 - ch.length) false).length
      = w * h * 3 := by
    simp [List.length_append]; omega
  rw [fractal_frame_to_bits_eq w h _ (bits_to_fractal_frame_length w h ch),
    hbtf, buildPixels_flatMap _ (w * h) 0 (by rw [hplen]; ring_nf; omega),
    List.drop_zero]
  rw [List.take_of_length_le (by rw [hplen]; ring_nf; omega)]

/-! ## The encoded bit stream as seen by the decoder -/

theorem decode_bits_encode (w h : Nat) (p : List Nat) (hc : w * h * 3 ≠ 0) :
    decode_bits w h (encode_data_to_pixels w h p)
      = prepare_bit_string p ++
          List.replicate
            ((chunkList (w * h * 3) (prepare_bit_string p)).length * (w * h * 3)
              - (prepare_bit_string p).length) false := by
  show ((chunkList (w * h * 3) (prepare_bit_string p)).map
      (bits_to_fractal_frame w h)).flatMap (fractal_frame_to_bits w h) = _
  rw [List.flatMap_map]
  have hcong : ∀ ch ∈ chunkList (w * h * 3) (prepare_bit_string p),
      fractal_frame_to_bits w h (bits_to_fractal_frame w h ch)
        = ch ++ List.replicate (w * h * 3 - ch.length) false := by
    intro ch hch
    have := (chunkList_mem hc _ (prepare_bit_string p) (le_refl _) ch hch).1
    exact frame_roundtrip w h ch this
  rw [flatMap_congr' hcong]
  exact chunkList_padded_join hc _ (prepare_bit_string p) (le_refl _)

/-! ## CRC-32 bounds -/

theorem crcStep_lt {c : Nat} (h : c < 2 ^ 32) : crcStep c < 2 ^ 32 := by
  unfold crcStep
  apply Nat.xor_lt_two_pow
  · omega
  · split <;> norm_num

theorem crcStep8_lt {c : Nat} (h : c < 2 ^ 32) : crcStep8 c < 2 ^ 32 :=
  crcStep_lt (crcStep_lt (crcStep_lt (crcStep_lt (crcStep_lt (crcStep_lt
    (crcStep_lt (crcStep_lt h)))))))

theorem crcUpdateByte_lt {c b : Nat} (hc : c < 2 ^ 32) (hb : b < 2 ^ 32) :
    crcUpdateByte c b < 2 ^ 32 :=
  crcStep8_lt (Nat.xor_lt_two_pow hc hb)

theorem crc32Run_lt :
    ∀ (bs : List Nat) (c : Nat), c < 2 ^ 32 → (∀ b ∈ bs, b < 256) →
      crc32Run c bs < 2 ^ 32 := by
  intro bs
  induction bs with
  | nil => intro c hc _; exact hc
  | cons b bs ih =>
    intro c hc hb
    show crc32Run (crcUpdateByte c b) bs < 2 ^ 32
    exact ih _ (crcUpdateByte_lt hc (by have := hb b (by simp); omega))
      (fun x hx => hb x (by simp [hx]))

theorem crc32_lt (bs : List Nat) (hb : ∀ b ∈ bs, b < 256) :
    crc32 bs < 2 ^ 32 := by
  unfold crc32
  exact Nat.xor_lt_two_pow (crc32Run_lt bs _ (by norm_num) hb) (by norm_num)

/-! ## Length of the prepared bit string -/

theorem flatMap_pyFormat8_length (p : List Nat) (hb : ∀ b ∈ p, b < 256) :
    (p.flatMap (fun b => pyFormatBits b 8)).length = 8 * p.length := by
  induction p with
  | nil => simp
  | cons b p ih =>
    rw [List.flatMap_cons, List.length_append,
      pyFormatBits_length (by have := hb b (by simp); norm_num; omega)
        (by norm_num),
      ih (fun x hx => hb x (by simp [hx]))]
    simp; ring

theorem prepare_length (p : List Nat) (hL : p.length < 2 ^ 32)
    (hb : ∀ b ∈ p, b < 256) :
    (prepare_bit_string p).length = 96 + 8 * p.length := by
  show ((pyFormatBits 70 8 ++ pyFormatBits 79 8 ++ pyFormatBits 76 8 ++
      pyFormatBits 68 8) ++ pyFormatBits p.length 32 ++
      pyFormatBits (crc32 p) 32 ++
      p.flatMap (fun b => pyFormatBits b 8)).length = _
  simp only [List.length_append]
  rw [pyFormatBits_length (show (70 : Nat) < 2 ^ 8 by norm_num) (by norm_num),
    pyFormatBits_length (show (79 : Nat) < 2 ^ 8 by norm_num) (by norm_num),
    pyFormatBits_length (show (76 : Nat) < 2 ^ 8 by norm_num) (by norm_num),
    pyFormatBits_length (show (68 : Nat) < 2 ^ 8 by norm_num) (by norm_num),
    pyFormatBits_length hL (by norm_num),
    pyFormatBits_length (crc32_lt p hb) (by norm_num),
    flatMap_pyFormat8_length p hb]

/-! ## Byte reassembly -/

theorem bitsToBytesAux_congr :
    ∀ fuel₁ fuel₂ (l : List Bool), l.length ≤ fuel₁ → l.length ≤ fuel₂ →
      bitsToBytesAux fuel₁ l = bitsToBytesAux fuel₂ l := by
  intro fuel₁
  induction fuel₁ with
  | zero =>
    intro fuel₂ l h1 _
    have hl : l = [] := List.eq_nil_of_length_eq_zero (by omega)
    subst hl; cases fuel₂ <;> simp [bitsToBytesAux]
  | succ f ih =>
    intro fuel₂ l h1 h2
    match l, fuel₂ with
    | [], 0 => simp [bitsToBytesAux]
    | [], fuel₂ + 1 => simp [bitsToBytesAux]
    | x :: xs, 0 => simp at h2
    | x :: xs, fuel₂ + 1 =>
      show bitsToNat ((x :: xs).take 8) :: bitsToBytesAux f ((x :: xs).drop 8)
          = bitsToNat ((x :: xs).take 8) ::
              bitsToBytesAux fuel₂ ((x :: xs).drop 8)
      congr 1
      apply ih fuel₂ ((x :: xs).drop 8) <;>
        · simp only [List.length_drop, List.length_cons] at h1 h2 ⊢; omega

theorem bitsToBytes_cons8 {l : List Bool} (hl : l ≠ []) :
    bitsToBytes l = bitsToNat (l.take 8) :: bitsToBytes (l.drop 8) := by
  unfold bitsToBytes
  obtain ⟨x, xs, rfl⟩ := List.exists_cons_of_ne_nil hl
  have h1 : bitsToBytesAux (x :: xs).length (x :: xs)
      = bitsToNat ((x :: xs).take 8) ::
          bitsToBytesAux xs.length ((x :: xs).drop 8) := rfl
  rw [h1]
  congr 1
  apply bitsToBytesAux_congr <;>
    · simp only [List.length_drop, List.length_cons]; omega

theorem bitsToBytes_flatMap_append (p : List Nat) (hb : ∀ b ∈ p, b < 256)
    (t : List Bool) :
    bitsToBytes (p.flatMap (fun b => pyFormatBits b 8) ++ t)
      = p ++ bitsToBytes t := by
  induction p with
  | nil => simp
  | cons b p ih =>
    have hblt : b < 2 ^ 8 := by have := hb b (by simp); norm_num; omega
    have hlen : (pyFormatBits b 8).length = 8 :=
      pyFormatBits_length hblt (by norm_num)
    rw [List.flatMap_cons, List.append_assoc]
    have hne : pyFormatBits b 8 ++ (p.flatMap (fun b => pyFormatBits b 8) ++ t)
        ≠ [] := by
      intro h
      exact pyFormatBits_ne_nil b 8 (List.append_eq_nil.mp h).1
    rw [bitsToBytes_cons8 hne, List.take_left' hlen, List.drop_left' hlen,
      bitsToNat_pyFormatBits, ih (fun x hx => hb x (by simp [hx]))]
    rfl

theorem bitsToBytes_flatMap (p : List Nat) (hb : ∀ b ∈ p, b < 256) :
    bitsToBytes (p.flatMap (fun b => pyFormatBits b 8)) = p := by
  have := bitsToBytes_flatMap_append p hb []
  simpa [bitsToBytes, bitsToBytesAux] using this

/-! ## Reduction of `parse_bit_string` on header-shaped inputs -/

theorem except_bind_ok {α β : Type} (a : α) (f : α → Except PyExc β) :
    (Except.ok a >>= f) = f a := rfl

theorem pyIntBin_of_ne_nil {l : List Bool} (hl : l ≠ []) :
    pyIntBin l = .ok (bitsToNat l) := by
  rw [pyIntBin, if_neg]
  simpa [List.isEmpty_iff] using hl

theorem parse_structured (Lv : Nat) (hL : Lv < 2 ^ 32) (CB : List Bool)
    (hCB : CB.length = 32) (D : List Bool) :
    parse_bit_string
        (pyFormatBits 70 8 ++ pyFormatBits 79 8 ++ pyFormatBits 76 8 ++
          pyFormatBits 68 8 ++ pyFormatBits Lv 32 ++ CB ++ D)
      = if D.length < Lv * 8 then .error (.valueError msgIncomplete)
        else if crc32 (bitsToBytes (D.take (Lv * 8))) ≠ bitsToNat CB
          then .error (.valueError msgChecksum)
          else .ok (bitsToBytes (D.take (Lv * 8))) := by
  have l0 : (pyFormatBits 70 8).length = 8 :=
    pyFormatBits_length (by norm_num) (by norm_num)
  have l1 : (pyFormatBits 79 8).length = 8 :=
    pyFormatBits_length (by norm_num) (by norm_num)
  have l2 : (pyFormatBits 76 8).length = 8 :=
    pyFormatBits_length (by norm_num) (by norm_num)
  have l3 : (pyFormatBits 68 8).length = 8 :=
    pyFormatBits_length (by norm_num) (by norm_num)
  have lL : (pyFormatBits Lv 32).length = 32 :=
    pyFormatBits_length hL (by norm_num)
  set M0 := pyFormatBits 70 8
  set M1 := pyFormatBits 79 8
  set M2 := pyFormatBits 76 8
  set M3 := pyFormatBits 68 8
  set LB := pyFormatBits Lv 32
  set bs := M0 ++ M1 ++ M2 ++ M3 ++ LB ++ CB ++ D with hbs
  have hre1 : bs = (M0 ++ M1 ++ M2 ++ M3) ++ (LB ++ (CB ++ D)) := by
    rw [hbs]; simp [List.append_assoc]
  have hre2 : bs = (M0 ++ M1 ++ M2 ++ M3 ++ LB) ++ (CB ++ D) := by
    rw [hbs]; simp [List.append_assoc]
  have hre3 : bs = (M0 ++ M1 ++ M2 ++ M3 ++ LB ++ CB) ++ D := hbs
  have htake32 : bs.take 32 = M0 ++ M1 ++ M2 ++ M3 := by
    rw [hre1, List.take_left' (by simp [l0, l1, l2, l3])]
  have hg1 : M0 ++ M1 ++ M2 ++ M3 = M0 ++ (M1 ++ (M2 ++ M3)) := by
    simp [List.append_assoc]
  have hg2 : M0 ++ M1 ++ M2 ++ M3 = (M0 ++ M1) ++ (M2 ++ M3) := by
    simp [List.append_assoc]
  have hg3 : M0 ++ M1 ++ M2 ++ M3 = (M0 ++ M1 ++ M2) ++ M3 := by
    simp [List.append_assoc]
  have e0 : pyIntBin ((bs.take 32).take 8) = .ok 70 := by
    rw [htake32, hg1, List.take_left' l0]
    exact pyIntBin_pyFormatBits 70 8
  have e1 : pyIntBin (((bs.take 32).drop 8).take 8) = .ok 79 := by
    rw [htake32, hg1, List.drop_left' l0, List.take_left' l1]
    exact pyIntBin_pyFormatBits 79 8
  have e2 : pyIntBin (((bs.take 32).drop 16).take 8) = .ok 76 := by
    rw [htake32, hg2, List.drop_left' (by simp [l0, l1]),
      List.take_left' l2]
    exact pyIntBin_pyFormatBits 76 8
  have e3 : pyIntBin (((bs.take 32).drop 24).take 8) = .ok 68 := by
    rw [htake32, hg3, List.drop_left' (by simp [l0, l1, l2]),
      List.take_of_length_le (by rw [l3])]
    exact pyIntBin_pyFormatBits 68 8
  have eL : pyIntBin ((bs.drop 32).take 32) = .ok Lv := by
    rw [hre1, List.drop_left' (by simp [l0, l1, l2, l3]),
      List.take_left' lL]
    exact pyIntBin_pyFormatBits Lv 32
  have eC : pyIntBin ((bs.drop 64).take 32) = .ok (bitsToNat CB) := by
    rw [hre2, List.drop_left' (by simp [l0, l1, l2, l3, lL]),
      List.take_left' hCB]
    exact pyIntBin_of_ne_nil (by intro h; rw [h] at hCB; simp at hCB)
  have eD : bs.drop 96 = D := by
    rw [hre3, List.drop_left' (by simp [l0, l1, l2, l3, lL, hCB])]
  show parse_bit_string bs = _
  rw [parse_bit_string]
  rw [e0, except_bind_ok, e1, except_bind_ok, e2, except_bind_ok, e3,
    except_bind_ok]
  rw [if_neg (by decide)]
  rw [eL, except_bind_ok, eD]
  by_cases hlen : D.length < Lv * 8
  · rw [if_pos hlen, if_pos hlen]
    rfl
  · rw [if_neg hlen, if_neg hlen]
    rw [eC, except_bind_ok]
    by_cases hcrc : crc32 (bitsToBytes (D.take (Lv * 8))) ≠ bitsToNat CB
    · rw [if_pos hcrc, if_pos hcrc]
      rfl
    · rw [if_neg hcrc, if_neg hcrc]
      rfl

/-! ## The round trip -/

theorem prepare_bit_string_eq (p : List Nat) :
    prepare_bit_string p
      = pyFormatBits 70 8 ++ pyFormatBits 79 8 ++ pyFormatBits 76 8 ++
          pyFormatBits 68 8 ++ pyFormatBits p.length 32 ++
          pyFormatBits (crc32 p) 32 ++
          p.flatMap (fun b => pyFormatBits b 8) := rfl

theorem parse_prepare_pad (p : List Nat) (hL : p.length < 2 ^ 32)
    (hb : ∀ b ∈ p, b < 256) (k : Nat) :
    parse_bit_string (prepare_bit_string p ++ List.replicate k false)
      = .ok p := by
  have hDlen : (p.flatMap (fun b => pyFormatBits b 8)).length = 8 * p.length :=
    flatMap_pyFormat8_length p hb
  have hshape : prepare_bit_string p ++ List.replicate k false
      = pyFormatBits 70 8 ++ pyFormatBits 79 8 ++ pyFormatBits 76 8 ++
          pyFormatBits 68 8 ++ pyFormatBits p.length 32 ++
          pyFormatBits (crc32 p) 32 ++
          (p.flatMap (fun b => pyFormatBits b 8) ++ List.replicate k false) := by
    rw [prepare_bit_string_eq]
    simp [List.append_assoc]
  rw [hshape, parse_structured p.length hL _
    (pyFormatBits_length (crc32_lt p hb) (by norm_num)) _]
  have hnot : ¬ ((p.flatMap (fun b => pyFormatBits b 8) ++
      List.replicate k false).length < p.length * 8) := by
    simp only [List.length_append, List.length_replicate, hDlen]
    omega
  rw [if_neg hnot]
  rw [List.take_left' (by rw [hDlen]; ring), bitsToBytes_flatMap p hb,
    bitsToNat_pyFormatBits]
  rw [if_neg (by simp)]

theorem decode_encode (w h : Nat) (p : List Nat) (hc : w * h * 3 ≠ 0)
    (hL : p.length < 2 ^ 32) (hb : ∀ b ∈ p, b < 256) :
    decode_pixels_to_data w h (encode_data_to_pixels w h p) = .ok p := by
  unfold decode_pixels_to_data
  rw [decode_bits_encode w h p hc]
  exact parse_prepare_pad p hL hb _

/-! ## Decoding after dropping the last frame -/

theorem take_append_add {α : Type} (l₁ l₂ : List α) (n : Nat) :
    (l₁ ++ l₂).take (l₁.length + n) = l₁ ++ l₂.take n := by
  rw [take_add', List.take_left, List.drop_left]

theorem encode_length_frames (w h : Nat) (p : List Nat) :
    (encode_data_to_pixels w h p).length
      = (chunkList (w * h * 3) (prepare_bit_string p)).length := by
  show ((chunkList (w * h * 3) (prepare_bit_string p)).map
    (bits_to_fractal_frame w h)).length = _
  simp

theorem decode_bits_encode_dropLast (w h : Nat) (p : List Nat)
    (hc : w * h * 3 ≠ 0) :
    decode_bits w h ((encode_data_to_pixels w h p).dropLast)
      = (prepare_bit_string p).take
          (((chunkList (w * h * 3) (prepare_bit_string p)).length - 1)
            * (w * h * 3)) := by
  show (((chunkList (w * h * 3) (prepare_bit_string p)).map
      (bits_to_fractal_frame w h)).dropLast).flatMap
      (fractal_frame_to_bits w h) = _
  rw [← List.map_dropLast, List.flatMap_map]
  have hcong : ∀ ch ∈ (chunkList (w * h * 3) (prepare_bit_string p)).dropLast,
      fractal_frame_to_bits w h (bits_to_fractal_frame w h ch)
        = ch ++ List.replicate (w * h * 3 - ch.length) false := by
    intro ch hch
    have hmem := List.dropLast_subset _ hch
    have := (chunkList_mem hc _ (prepare_bit_string p) (le_refl _) ch hmem).1
    exact frame_roundtrip w h ch this
  rw [flatMap_congr' hcong]
  exact chunkList_dropLast_join hc _ (prepare_bit_string p) (le_refl _)

theorem parse_prepare_take (p : List Nat) (hL : p.length < 2 ^ 32)
    (hb : ∀ b ∈ p, b < 256) (m : Nat) (hm96 : 96 ≤ m)
    (hmS : m < (prepare_bit_string p).length) :
    parse_bit_string ((prepare_bit_string p).take m)
      = .error (.valueError msgIncomplete) := by
  have hDlen : (p.flatMap (fun b => pyFormatBits b 8)).length = 8 * p.length :=
    flatMap_pyFormat8_length p hb
  have hSlen := prepare_length p hL hb
  have hCBlen : (pyFormatBits (crc32 p) 32).length = 32 :=
    pyFormatBits_length (crc32_lt p hb) (by norm_num)
  have hHlen : (pyFormatBits 70 8 ++ pyFormatBits 79 8 ++ pyFormatBits 76 8 ++
      pyFormatBits 68 8 ++ pyFormatBits p.length 32 ++
      pyFormatBits (crc32 p) 32).length = 96 := by
    simp only [List.length_append]
    rw [pyFormatBits_length (show (70 : Nat) < 2 ^ 8 by norm_num) (by norm_num),
      pyFormatBits_length (show (79 : Nat) < 2 ^ 8 by norm_num) (by norm_num),
      pyFormatBits_length (show (76 : Nat) < 2 ^ 8 by norm_num) (by norm_num),
      pyFormatBits_length (show (68 : Nat) < 2 ^ 8 by norm_num) (by norm_num),
      pyFormatBits_length hL (by norm_num), hCBlen]
  have hshape : (prepare_bit_string p).take m
      = pyFormatBits 70 8 ++ pyFormatBits 79 8 ++ pyFormatBits 76 8 ++
          pyFormatBits 68 8 ++ pyFormatBits p.length 32 ++
          pyFormatBits (crc32 p) 32 ++
          ((p.flatMap (fun b => pyFormatBits b 8)).take (m - 96)) := by
    rw [prepare_bit_string_eq]
    have hmsplit : m = (pyFormatBits 70 8 ++ pyFormatBits 79 8 ++
        pyFormatBits 76 8 ++ pyFormatBits 68 8 ++ pyFormatBits p.length 32 ++
        pyFormatBits (crc32 p) 32).length + (m - 96) := by
      rw [hHlen]; omega
    conv_lhs => rw [hmsplit]
    rw [take_append_add]
  rw [hshape, parse_structured p.length hL _ hCBlen _]
  rw [if_pos]
  rw [List.length_take, hDlen]
  rw [hSlen] at hmS
  omega

/-! ## CRC-32 detects single-byte differences -/

theorem xor_xor_cancel (a b c : Nat) : (a ^^^ c) ^^^ (b ^^^ c) = a ^^^ b := by
  rw [Nat.xor_assoc, Nat.xor_comm b c, ← Nat.xor_assoc c c b, Nat.xor_self,
    Nat.zero_xor]

theorem crcStep_xor (a b : Nat) :
    crcStep (a ^^^ b) = crcStep a ^^^ crcStep b := by
  unfold crcStep
  rw [Nat.xor_div_two]
  by_cases ha : a % 2 = 1 <;> by_cases hb : b % 2 = 1
  · have hab : ¬ ((a ^^^ b) % 2 = 1) := by
      rw [Nat.xor_mod_two_eq_one]; tauto
    rw [if_neg hab, if_pos ha, if_pos hb, Nat.xor_zero]
    exact (xor_xor_cancel _ _ _).symm
  · have hab : (a ^^^ b) % 2 = 1 := by
      rw [Nat.xor_mod_two_eq_one]; tauto
    rw [if_pos hab, if_pos ha, if_neg hb, Nat.xor_zero, Nat.xor_assoc (a / 2),
      Nat.xor_comm (b / 2) 0xEDB88320, ← Nat.xor_assoc]
  · have hab : (a ^^^ b) % 2 = 1 := by
      rw [Nat.xor_mod_two_eq_one]; tauto
    rw [if_pos hab, if_neg ha, if_pos hb, Nat.xor_zero, Nat.xor_assoc]
  · have hab : ¬ ((a ^^^ b) % 2 = 1) := by
      rw [Nat.xor_mod_two_eq_one]; tauto
    rw [if_neg hab, if_neg ha, if_neg hb, Nat.xor_zero, Nat.xor_zero,
      Nat.xor_zero]

theorem crcStep8_xor (a b : Nat) :
    crcStep8 (a ^^^ b) = crcStep8 a ^^^ crcStep8 b := by
  unfold crcStep8
  rw [crcStep_xor, crcStep_xor, crcStep_xor, crcStep_xor, crcStep_xor,
    crcStep_xor, crcStep_xor, crcStep_xor]

theorem crcUpdateByte_xor (c₁ c₂ b₁ b₂ : Nat) :
    crcUpdateByte (c₁ ^^^ c₂) (b₁ ^^^ b₂)
      = crcUpdateByte c₁ b₁ ^^^ crcUpdateByte c₂ b₂ := by
  unfold crcUpdateByte
  rw [← crcStep8_xor]
  congr 1
  rw [Nat.xor_assoc c₁ b₁, Nat.xor_comm b₁ (c₂ ^^^ b₂), Nat.xor_assoc c₂,
    Nat.xor_comm b₂ b₁, ← Nat.xor_assoc c₁, ← Nat.xor_assoc]

theorem crc32Run_xor :
    ∀ (l₁ l₂ : List Nat) (c₁ c₂ : Nat), l₁.length = l₂.length →
      crc32Run c₁ l₁ ^^^ crc32Run c₂ l₂
        = crc32Run (c₁ ^^^ c₂) (List.zipWith (· ^^^ ·) l₁ l₂) := by
  intro l₁
  induction l₁ with
  | nil =>
    intro l₂ c₁ c₂ hlen
    have : l₂ = [] := List.eq_nil_of_length_eq_zero (by simp at hlen; omega)
    subst this
    simp [crc32Run]
  | cons x xs ih =>
    intro l₂ c₁ c₂ hlen
    match l₂ with
    | [] => simp at hlen
    | y :: ys =>
      show crc32Run (crcUpdateByte c₁ x) xs ^^^ crc32Run (crcUpdateByte c₂ y) ys
          = crc32Run (crcUpdateByte (c₁ ^^^ c₂) (x ^^^ y))
              (List.zipWith (· ^^^ ·) xs ys)
      rw [crcUpdateByte_xor]
      exact ih ys _ _ (by simpa using hlen)

theorem zipWith_xor_self (l : List Nat) :
    List.zipWith (· ^^^ ·) l l = List.replicate l.length 0 := by
  induction l with
  | nil => simp
  | cons x xs ih => simp [ih, List.replicate_succ]

theorem crcStep_zero : crcStep 0 = 0 := by decide

theorem crc32Run_replicate_zero (m : Nat) :
    crc32Run 0 (List.replicate m 0) = 0 := by
  induction m with
  | zero => rfl
  | succ m ih =>
    rw [List.replicate_succ]
    show crc32Run (crcUpdateByte 0 0) (List.replicate m 0) = 0
    have h0 : crcUpdateByte 0 0 = 0 := by decide
    rw [h0, ih]

theorem crcStep_ne_zero {c : Nat} (hlt : c < 2 ^ 32) (hne : c ≠ 0) :
    crcStep c ≠ 0 := by
  unfold crcStep
  by_cases hp : c % 2 = 1
  · rw [if_pos hp]
    intro h
    have h2 : c / 2 = 0xEDB88320 := by
      have := Nat.xor_eq_zero.mp h
      exact this
    omega
  · rw [if_neg hp, Nat.xor_zero]
    intro h
    have : c / 2 = 0 := h
    omega

theorem crcStep8_ne_zero {c : Nat} (hlt : c < 2 ^ 32) (hne : c ≠ 0) :
    crcStep8 c ≠ 0 := by
  unfold crcStep8
  exact crcStep_ne_zero (crcStep_lt (crcStep_lt (crcStep_lt (crcStep_lt
      (crcStep_lt (crcStep_lt (crcStep_lt hlt)))))))
    (crcStep_ne_zero (crcStep_lt (crcStep_lt (crcStep_lt (crcStep_lt
        (crcStep_lt (crcStep_lt hlt))))))
      (crcStep_ne_zero (crcStep_lt (crcStep_lt (crcStep_lt (crcStep_lt
          (crcStep_lt hlt)))))
        (crcStep_ne_zero (crcStep_lt (crcStep_lt (crcStep_lt (crcStep_lt hlt))))
          (crcStep_ne_zero (crcStep_lt (crcStep_lt (crcStep_lt hlt)))
            (crcStep_ne_zero (crcStep_lt (crcStep_lt hlt))
              (crcStep_ne_zero (crcStep_lt hlt)
                (crcStep_ne_zero hlt hne)))))))

theorem crc32Run_zeros_ne_zero :
    ∀ (m : Nat) (x : Nat), x ≠ 0 → x < 2 ^ 32 →
      crc32Run x (List.replicate m 0) ≠ 0 := by
  intro m
  induction m with
  | zero => intro x hx _; exact hx
  | succ m ih =>
    intro x hx hlt
    rw [List.replicate_succ]
    show crc32Run (crcUpdateByte x 0) (List.replicate m 0) ≠ 0
    have h1 : crcUpdateByte x 0 = crcStep8 x := by
      unfold crcUpdateByte; rw [Nat.xor_zero]
    rw [h1]
    exact ih _ (crcStep8_ne_zero hlt hx) (crcStep8_lt hlt)

theorem crc32_append_single_ne (pre post : List Nat) {x y : Nat}
    (hx : x < 2 ^ 32) (hy : y < 2 ^ 32) (hxy : x ≠ y) :
    crc32 (pre ++ x :: post) ≠ crc32 (pre ++ y :: post) := by
  intro heq
  have hxor : crc32 (pre ++ x :: post) ^^^ crc32 (pre ++ y :: post) = 0 := by
    rw [heq, Nat.xor_self]
  unfold crc32 at hxor
  rw [xor_xor_cancel] at hxor
  rw [crc32Run_xor _ _ _ _ (by simp)] at hxor
  rw [Nat.xor_self] at hxor
  rw [List.zipWith_append _ _ _ _ _ rfl, zipWith_xor_self] at hxor
  have hz : List.zipWith (· ^^^ ·) (x :: post) (y :: post)
      = (x ^^^ y) :: List.replicate post.length 0 := by
    simp [zipWith_xor_self]
  rw [hz] at hxor
  unfold crc32Run at hxor
  rw [List.foldl_append] at hxor
  have hpre : List.foldl crcUpdateByte 0 (List.replicate pre.length 0) = 0 :=
    crc32Run_replicate_zero pre.length
  rw [hpre] at hxor
  have hupd : crcUpdateByte 0 (x ^^^ y) = crcStep8 (x ^^^ y) := by
    unfold crcUpdateByte; rw [Nat.zero_xor]
  have hne : x ^^^ y ≠ 0 := fun h => hxy (Nat.xor_eq_zero.mp h)
  have hlt : x ^^^ y < 2 ^ 32 := Nat.xor_lt_two_pow hx hy
  have := crc32Run_zeros_ne_zero post.length (crcStep8 (x ^^^ y))
    (crcStep8_ne_zero hlt hne) (crcStep8_lt hlt)
  apply this
  show List.foldl crcUpdateByte (crcStep8 (x ^^^ y)) (List.replicate post.length 0) = 0
  rw [← hupd]
  exact hxor

theorem crc32_set_ne (p : List Nat) (hb : ∀ b ∈ p, b < 256) (q : Nat)
    (hq : q < p.length) (b' : Nat) (hb' : b' < 256)
    (hne : b' ≠ p.getD q 0) :
    crc32 (p.set q b') ≠ crc32 p := by
  have hdec : p = p.take q ++ p.getD q 0 :: p.drop (q + 1) := by
    rw [getD_eq_getElem' p q 0 hq]
    conv_lhs => rw [← List.take_append_drop q p]
    rw [List.drop_eq_getElem_cons hq]
  have hset : p.set q b' = p.take q ++ b' :: p.drop (q + 1) := by
    conv_lhs => rw [hdec]
    rw [List.set_append_right _ _ (by rw [List.length_take]; omega)]
    congr 1
    rw [show q - (p.take q).length = 0 from by rw [List.length_take]; omega]
    simp
  rw [hset]
  conv_rhs => rw [hdec]
  apply crc32_append_single_ne
  · omega
  · have : p.getD q 0 ∈ p := by
      rw [getD_eq_getElem' p q 0 hq]
      exact List.getElem_mem hq
    have := hb _ this
    omega
  · exact hne

/-! ## Effect of single-channel corruption on the extracted bit stream -/

theorem set_eq_take_cons_drop {α : Type} :
    ∀ (l : List α) (j : Nat) (x : α), j < l.length →
      l.set j x = l.take j ++ x :: l.drop (j + 1) := by
  intro l
  induction l with
  | nil => intro j x h; simp at h
  | cons a as ih =>
    intro j x h
    match j with
    | 0 => simp
    | j + 1 =>
      rw [List.set_cons_succ, List.take_succ_cons, List.drop_succ_cons,
        ih j x (by simpa using h), List.cons_append]

theorem getD_mem {α : Type} (l : List α) (j : Nat) (d : α)
    (h : j < l.length) : l.getD j d ∈ l := by
  rw [getD_eq_getElem' l j d h]
  exact List.getElem_mem h

theorem flatMap_length_const {α β : Type} (m : Nat) :
    ∀ (l : List α) (g : α → List β), (∀ x ∈ l, (g x).length = m) →
      (l.flatMap g).length = l.length * m := by
  intro l
  induction l with
  | nil => simp
  | cons x xs ih =>
    intro g hg
    rw [List.flatMap_cons, List.length_append, hg x (by simp),
      ih g (fun y hy => hg y (by simp [hy])), List.length_cons, Nat.succ_mul]
    omega

theorem pixBits_updatePix (pix : Pixel) (ch v : Nat) (hch : ch < 3) :
    pixBits (updatePix pix ch v) = (pixBits pix).set ch (decide (128 ≤ v)) := by
  obtain ⟨r, g, b⟩ := pix
  match ch with
  | 0 => rfl
  | 1 => rfl
  | 2 => rfl
  | n + 3 => exact absurd hch (by omega)

theorem pixBits_getD (pix : Pixel) (ch : Nat) (hch : ch < 3) :
    (pixBits pix).getD ch false = decide (128 ≤ getChan pix ch) := by
  obtain ⟨r, g, b⟩ := pix
  match ch with
  | 0 => rfl
  | 1 => rfl
  | 2 => rfl
  | n + 3 => exact absurd hch (by omega)

theorem pixBits_length (pix : Pixel) : (pixBits pix).length = 3 := rfl

theorem decode_bits_setChannel (w h : Nat) (frames : List Frame)
    (hfr : ∀ fr ∈ frames, fr.length = w * h)
    (f k ch v : Nat) (hf : f < frames.length) (hk : k < w * h) (hch : ch < 3) :
    decode_bits w h (setChannel frames f k ch v)
      = (decode_bits w h frames).set (f * (w * h * 3) + (3 * k + ch))
          (decide (128 ≤ v))
    ∧ (decode_bits w h frames).getD (f * (w * h * 3) + (3 * k + ch)) false
      = decide (128 ≤ getChan ((frames.getD f []).getD k (0, 0, 0)) ch) := by
  set fr := frames.getD f [] with hfrdef
  set pix := fr.getD k (0, 0, 0) with hpixdef
  have hfrmem : fr ∈ frames := getD_mem frames f [] hf
  have hfrlen : fr.length = w * h := hfr fr hfrmem
  have hkfr : k < fr.length := by rw [hfrlen]; omega
  have hframes : frames = frames.take f ++ fr :: frames.drop (f + 1) := by
    conv_lhs => rw [← List.take_append_drop f frames]
    rw [drop_cons_getD frames f [] hf]
  have hset : setChannel frames f k ch v
      = frames.take f ++
          fr.set k (updatePix pix ch v) :: frames.drop (f + 1) := by
    unfold setChannel
    rw [← hfrdef, ← hpixdef]
    exact set_eq_take_cons_drop frames f _ hf
  have hfrk : fr = fr.take k ++ pix :: fr.drop (k + 1) := by
    conv_lhs => rw [← List.take_append_drop k fr]
    rw [drop_cons_getD fr k (0, 0, 0) hkfr]
  have hfrset : fr.set k (updatePix pix ch v)
      = fr.take k ++ updatePix pix ch v :: fr.drop (k + 1) :=
    set_eq_take_cons_drop fr k _ hkfr
  have hffb_fr : fractal_frame_to_bits w h fr
      = (fr.take k).flatMap pixBits ++
          (pixBits pix ++ (fr.drop (k + 1)).flatMap pixBits) := by
    rw [fractal_frame_to_bits_eq w h fr hfrlen]
    conv_lhs => rw [hfrk]
    rw [List.flatMap_append, List.flatMap_cons]
  have hffb_fr' : fractal_frame_to_bits w h (fr.set k (updatePix pix ch v))
      = (fr.take k).flatMap pixBits ++
          ((pixBits pix).set ch (decide (128 ≤ v)) ++
            (fr.drop (k + 1)).flatMap pixBits) := by
    rw [fractal_frame_to_bits_eq w h _ (by rw [List.length_set, hfrlen])]
    conv_lhs => rw [hfrset]
    rw [List.flatMap_append, List.flatMap_cons, pixBits_updatePix pix ch v hch]
  have hXlen : (decode_bits w h (frames.take f)).length = f * (w * h * 3) := by
    unfold decode_bits
    rw [flatMap_length_const (w * h * 3) _ _ ?hg, List.length_take,
      Nat.min_eq_left (Nat.le_of_lt hf)]
    case hg =>
      intro fr' hfr'
      have hmem : fr' ∈ frames := List.take_subset f frames hfr'
      rw [fractal_frame_to_bits_eq w h fr' (hfr fr' hmem),
        flatMap_pixBits_length, hfr fr' hmem]
      ring
  have hPlen : ((fr.take k).flatMap pixBits).length = 3 * k := by
    rw [flatMap_pixBits_length, List.length_take, Nat.min_eq_left (by omega)]
  have hB : decode_bits w h frames
      = decode_bits w h (frames.take f)
        ++ (fractal_frame_to_bits w h fr
            ++ decode_bits w h (frames.drop (f + 1))) := by
    show (frames.flatMap (fractal_frame_to_bits w h)) = _
    conv_lhs => rw [hframes]
    rw [List.flatMap_append, List.flatMap_cons]
    rfl
  have hB' : decode_bits w h (setChannel frames f k ch v)
      = decode_bits w h (frames.take f)
        ++ (fractal_frame_to_bits w h (fr.set k (updatePix pix ch v))
            ++ decode_bits w h (frames.drop (f + 1))) := by
    show ((setChannel frames f k ch v).flatMap (fractal_frame_to_bits w h)) = _
    rw [hset, List.flatMap_append, List.flatMap_cons]
    rfl
  constructor
  · rw [hB', hB, hffb_fr, hffb_fr']
    rw [List.set_append_right _ _ (by rw [hXlen]; omega)]
    congr 1
    rw [show f * (w * h * 3) + (3 * k + ch)
        - (decode_bits w h (frames.take f)).length = 3 * k + ch from by
      rw [hXlen]; omega]
    rw [List.set_append_left _ _ (by
      simp only [List.length_append, hPlen, pixBits_length]; omega)]
    congr 1
    rw [List.set_append_right _ _ (by rw [hPlen]; omega)]
    congr 1
    rw [show 3 * k + ch - ((fr.take k).flatMap pixBits).length = ch from by
      rw [hPlen]; omega]
    rw [List.set_append_left _ _ (by rw [pixBits_length]; omega)]
  · rw [hB, hffb_fr]
    rw [List.getD_append_right _ _ _ _ (by rw [hXlen]; omega)]
    rw [show f * (w * h * 3) + (3 * k + ch)
        - (decode_bits w h (frames.take f)).length = 3 * k + ch from by
      rw [hXlen]; omega]
    rw [List.getD_append _ _ _ _ (by
      simp only [List.length_append, hPlen, pixBits_length]; omega)]
    rw [List.getD_append_right _ _ _ _ (by rw [hPlen]; omega)]
    rw [show 3 * k + ch - ((fr.take k).flatMap pixBits).length = ch from by
      rw [hPlen]; omega]
    rw [List.getD_append _ _ _ _ (by rw [pixBits_length]; omega)]
    exact pixBits_getD pix ch hch

/-! ## Parsing a corrupted stream: checksum/payload-region flips -/

theorem getD_set_self {α : Type} (l : List α) (j : Nat) (x : α) (d : α)
    (h : j < l.length) : (l.set j x).getD j d = x := by
  rw [getD_eq_getElem' _ _ _ (by rw [List.length_set]; exact h)]
  exact List.getElem_set_self _

theorem parse_prepare_pad_set (p : List Nat) (hL : p.length < 2 ^ 32)
    (hb : ∀ b ∈ p, b < 256) (z i : Nat) (nb : Bool)
    (hi64 : 64 ≤ i) (hi : i < 96 + 8 * p.length)
    (hnb : nb = !((prepare_bit_string p ++ List.replicate z false).getD i
      false)) :
    parse_bit_string
        ((prepare_bit_string p ++ List.replicate z false).set i nb)
      = .error (.valueError msgChecksum) := by
  have hDlen : (p.flatMap (fun b => pyFormatBits b 8)).length = 8 * p.length :=
    flatMap_pyFormat8_length p hb
  have hCBlen : (pyFormatBits (crc32 p) 32).length = 32 :=
    pyFormatBits_length (crc32_lt p hb) (by norm_num)
  have hLBlen : (pyFormatBits p.length 32).length = 32 :=
    pyFormatBits_length hL (by norm_num)
  have hM0 : (pyFormatBits 70 8).length = 8 :=
    pyFormatBits_length (by norm_num) (by norm_num)
  have hM1 : (pyFormatBits 79 8).length = 8 :=
    pyFormatBits_length (by norm_num) (by norm_num)
  have hM2 : (pyFormatBits 76 8).length = 8 :=
    pyFormatBits_length (by norm_num) (by norm_num)
  have hM3 : (pyFormatBits 68 8).length = 8 :=
    pyFormatBits_length (by norm_num) (by norm_num)
  have hH64len : (pyFormatBits 70 8 ++ pyFormatBits 79 8 ++ pyFormatBits 76 8
      ++ pyFormatBits 68 8 ++ pyFormatBits p.length 32).length = 64 := by
    simp only [List.length_append]
    omega
  have hB64 : prepare_bit_string p ++ List.replicate z false
      = (pyFormatBits 70 8 ++ pyFormatBits 79 8 ++ pyFormatBits 76 8 ++
          pyFormatBits 68 8 ++ pyFormatBits p.length 32) ++
          (pyFormatBits (crc32 p) 32 ++
            (p.flatMap (fun b => pyFormatBits b 8) ++
              List.replicate z false)) := by
    rw [prepare_bit_string_eq]
    simp [List.append_assoc]
  by_cases hcase : i < 96
  · -- flip inside the stored checksum field
    set j := i - 64 with hj
    have hj32 : j < 32 := by omega
    have hgetB : (prepare_bit_string p ++ List.replicate z false).getD i false
        = (pyFormatBits (crc32 p) 32).getD j false := by
      rw [hB64, List.getD_append_right _ _ _ _ (by rw [hH64len]; omega),
        List.getD_append _ _ _ _ (by rw [hCBlen]; rw [hH64len]; omega)]
      congr 1
      rw [hH64len]
    have hsetB : (prepare_bit_string p ++ List.replicate z false).set i nb
        = pyFormatBits 70 8 ++ pyFormatBits 79 8 ++ pyFormatBits 76 8 ++
            pyFormatBits 68 8 ++ pyFormatBits p.length 32 ++
            (pyFormatBits (crc32 p) 32).set j nb ++
            (p.flatMap (fun b => pyFormatBits b 8) ++
              List.replicate z false) := by
      rw [hB64, List.set_append_right _ _ (by rw [hH64len]; omega)]
      rw [show i - (pyFormatBits 70 8 ++ pyFormatBits 79 8 ++
        pyFormatBits 76 8 ++ pyFormatBits 68 8 ++
        pyFormatBits p.length 32).length = j from by rw [hH64len]]
      rw [List.set_append_left _ _ (by rw [hCBlen]; omega)]
      simp [List.append_assoc]
    have hCBset : ((pyFormatBits (crc32 p) 32).set j nb).length = 32 := by
      rw [List.length_set]; exact hCBlen
    rw [hsetB, parse_structured p.length hL _ hCBset _]
    rw [if_neg (by
      simp only [List.length_append, List.length_replicate, hDlen]
      omega)]
    rw [List.take_left' (by rw [hDlen]; ring), bitsToBytes_flatMap p hb]
    rw [if_pos]
    intro heq
    have hlists : (pyFormatBits (crc32 p) 32).set j nb
        = pyFormatBits (crc32 p) 32 := by
      apply bitsToNat_inj (by rw [List.length_set])
      rw [← heq, bitsToNat_pyFormatBits]
    have hgd := congrArg (fun l => l.getD j false) hlists
    simp only at hgd
    rw [getD_set_self _ _ _ _ (by rw [hCBlen]; omega)] at hgd
    rw [hnb, hgetB] at hgd
    exact Bool.not_ne_self _ hgd
  · -- flip inside the payload bits
    set j := i - 96 with hj
    have hj8L : j < 8 * p.length := by omega
    set q := j / 8 with hqdef
    set r := j % 8 with hrdef
    have hq : q < p.length := by omega
    have hr : r < 8 := by omega
    have hjqr : j = 8 * q + r := by omega
    set bq := p.getD q 0 with hbqdef
    have hbqlt : bq < 256 := by
      have := hb _ (getD_mem p q 0 hq)
      omega
    have hF8len : (pyFormatBits bq 8).length = 8 :=
      pyFormatBits_length (by norm_num; omega) (by norm_num)
    have hdecp : p = p.take q ++ bq :: p.drop (q + 1) := by
      conv_lhs => rw [← List.take_append_drop q p]
      rw [drop_cons_getD p q 0 hq]
    have hDp : p.flatMap (fun b => pyFormatBits b 8)
        = (p.take q).flatMap (fun b => pyFormatBits b 8) ++
            (pyFormatBits bq 8 ++
              (p.drop (q + 1)).flatMap (fun b => pyFormatBits b 8)) := by
      conv_lhs => rw [hdecp]
      rw [List.flatMap_append, List.flatMap_cons]
    have hbtake : ∀ b ∈ p.take q, b < 256 :=
      fun b hbm => hb b (List.take_subset q p hbm)
    have hbdrop : ∀ b ∈ p.drop (q + 1), b < 256 :=
      fun b hbm => hb b (List.drop_subset (q + 1) p hbm)
    have hLflat : ((p.take q).flatMap (fun b => pyFormatBits b 8)).length
        = 8 * q := by
      rw [flatMap_pyFormat8_length _ hbtake, List.length_take,
        Nat.min_eq_left (by omega)]
    have hH96 : (pyFormatBits 70 8 ++ pyFormatBits 79 8 ++ pyFormatBits 76 8 ++
        pyFormatBits 68 8 ++ pyFormatBits p.length 32 ++
        pyFormatBits (crc32 p) 32).length = 96 := by
      simp only [List.length_append]
      omega
    have hB96 : prepare_bit_string p ++ List.replicate z false
        = (pyFormatBits 70 8 ++ pyFormatBits 79 8 ++ pyFormatBits 76 8 ++
            pyFormatBits 68 8 ++ pyFormatBits p.length 32 ++
            pyFormatBits (crc32 p) 32) ++
            (p.flatMap (fun b => pyFormatBits b 8) ++
              List.replicate z false) := by
      rw [prepare_bit_string_eq]
      simp [List.append_assoc]
    have hgetB : (prepare_bit_string p ++ List.replicate z false).getD i false
        = (pyFormatBits bq 8).getD r false := by
      rw [hB96, List.getD_append_right _ _ _ _ (by rw [hH96]; omega),
        List.getD_append _ _ _ _ (by rw [hDlen, hH96]; omega)]
      rw [show i - (pyFormatBits 70 8 ++ pyFormatBits 79 8 ++
        pyFormatBits 76 8 ++ pyFormatBits 68 8 ++ pyFormatBits p.length 32 ++
        pyFormatBits (crc32 p) 32).length = j from by rw [hH96]]
      rw [hDp, List.getD_append_right _ _ _ _ (by rw [hLflat]; omega),
        List.getD_append _ _ _ _ (by rw [hF8len, hLflat]; omega)]
      congr 1
      rw [hLflat]
      omega
    set nby := bitsToNat ((pyFormatBits bq 8).set r nb) with hnbydef
    have hnbylt : nby < 256 := by
      have h8 : ((pyFormatBits bq 8).set r nb).length = 8 := by
        rw [List.length_set, hF8len]
      have := bitsToNat_lt ((pyFormatBits bq 8).set r nb)
      rw [h8] at this
      norm_num at this
      omega
    have hnbyne : nby ≠ bq := by
      intro heq
      have hlists : (pyFormatBits bq 8).set r nb = pyFormatBits bq 8 := by
        apply bitsToNat_inj (by rw [List.length_set])
        rw [hnbydef] at heq
        rw [heq, bitsToNat_pyFormatBits]
      have hgd := congrArg (fun l => l.getD r false) hlists
      simp only at hgd
      rw [getD_set_self _ _ _ _ (by rw [hF8len]; omega)] at hgd
      rw [hnb, hgetB] at hgd
      exact Bool.not_ne_self _ hgd
    have hsetB : (prepare_bit_string p ++ List.replicate z false).set i nb
        = pyFormatBits 70 8 ++ pyFormatBits 79 8 ++ pyFormatBits 76 8 ++
            pyFormatBits 68 8 ++ pyFormatBits p.length 32 ++
            pyFormatBits (crc32 p) 32 ++
            (((p.flatMap (fun b => pyFormatBits b 8)).set j nb) ++
              List.replicate z false) := by
      rw [hB96, List.set_append_right _ _ (by rw [hH96]; omega)]
      rw [show i - (pyFormatBits 70 8 ++ pyFormatBits 79 8 ++
        pyFormatBits 76 8 ++ pyFormatBits 68 8 ++ pyFormatBits p.length 32 ++
        pyFormatBits (crc32 p) 32).length = j from by rw [hH96]]
      rw [List.set_append_left _ _ (by rw [hDlen]; omega)]
    have hDpset : (p.flatMap (fun b => pyFormatBits b 8)).set j nb
        = (p.take q).flatMap (fun b => pyFormatBits b 8) ++
            ((pyFormatBits bq 8).set r nb ++
              (p.drop (q + 1)).flatMap (fun b => pyFormatBits b 8)) := by
      conv_lhs => rw [hDp]
      rw [List.set_append_right _ _ (by rw [hLflat]; omega)]
      rw [show j - ((p.take q).flatMap
        (fun b => pyFormatBits b 8)).length = r from by rw [hLflat]; omega]
      rw [List.set_append_left _ _ (by rw [hF8len]; omega)]
    have hbytes : bitsToBytes ((p.flatMap (fun b => pyFormatBits b 8)).set j nb)
        = p.set q nby := by
      rw [hDpset, bitsToBytes_flatMap_append _ hbtake]
      have hne : (pyFormatBits bq 8).set r nb ++
          (p.drop (q + 1)).flatMap (fun b => pyFormatBits b 8) ≠ [] := by
        intro hcontra
        have := congrArg List.length hcontra
        simp only [List.length_append, List.length_set, hF8len,
          List.length_nil] at this
        omega
      rw [bitsToBytes_cons8 hne,
        List.take_left' (by rw [List.length_set, hF8len]),
        List.drop_left' (by rw [List.length_set, hF8len]),
        bitsToBytes_flatMap _ hbdrop, ← hnbydef,
        ← set_eq_take_cons_drop p q nby hq]
    rw [hsetB, parse_structured p.length hL _ hCBlen _]
    rw [if_neg (by
      simp only [List.length_append, List.length_replicate, List.length_set,
        hDlen]
      omega)]
    rw [List.take_left' (by rw [List.length_set, hDlen]; ring), hbytes,
      bitsToNat_pyFormatBits]
    rw [if_pos (crc32_set_ne p hb q hq nby hnbylt hnbyne)]

/-! ## Remaining helpers for the claim theorems -/

theorem pyFormatBits_length_pos (n w : Nat) :
    1 ≤ (pyFormatBits n w).length := by
  have := natBits_length_pos n
  simp only [pyFormatBits, List.length_append, List.length_replicate]
  omega

theorem prepare_ne_nil (p : List Nat) : prepare_bit_string p ≠ [] := by
  rw [prepare_bit_string_eq]
  intro h
  have hlen := congrArg List.length h
  have h70 := pyFormatBits_length_pos 70 8
  simp only [List.length_append, List.length_nil] at hlen
  omega

theorem encode_count (w h : Nat) (p : List Nat) (hc : w * h * 3 ≠ 0)
    (hL : p.length < 2 ^ 32) (hb : ∀ b ∈ p, b < 256) :
    (encode_data_to_pixels w h p).length
      = (96 + 8 * p.length + w * h * 3 - 1) / (w * h * 3) := by
  rw [encode_length_frames,
    chunkList_length_eq hc _ _ (le_refl _) (prepare_ne_nil p),
    prepare_length p hL hb]

theorem encode_frames_length (w h : Nat) (p : List Nat) :
    ∀ fr ∈ encode_data_to_pixels w h p, fr.length = w * h := by
  intro fr hfr
  have hfr' : fr ∈ (chunkList (w * h * 3) (prepare_bit_string p)).map
      (bits_to_fractal_frame w h) := hfr
  obtain ⟨ch, _, rfl⟩ := List.mem_map.mp hfr'
  exact bits_to_fractal_frame_length w h ch

theorem bitChannel_cases (b : Bool) :
    bitChannel b = 0 ∨ bitChannel b = 255 := by
  cases b <;> simp [bitChannel]

theorem buildPixels_channels (padded : List Bool) :
    ∀ (n bi : Nat), ∀ pix ∈ buildPixels padded bi n,
      (pix.1 = 0 ∨ pix.1 = 255) ∧ (pix.2.1 = 0 ∨ pix.2.1 = 255) ∧
        (pix.2.2 = 0 ∨ pix.2.2 = 255) := by
  intro n
  induction n with
  | zero => intro bi pix hpix; simp [buildPixels] at hpix
  | succ n ih =>
    intro bi pix hpix
    by_cases h : bi + 2 < padded.length
    · rw [buildPixels, if_pos h] at hpix
      rcases List.mem_cons.mp hpix with rfl | hmem
      · exact ⟨bitChannel_cases _, bitChannel_cases _, bitChannel_cases _⟩
      · exact ih (bi + 3) pix hmem
    · rw [buildPixels, if_neg h] at hpix
      rcases List.mem_cons.mp hpix with rfl | hmem
      · simp
      · exact ih bi pix hmem

theorem except_bind_err {α β : Type} (e : PyExc) (f : α → Except PyExc β) :
    ((Except.error e : Except PyExc α) >>= f) = .error e := rfl

theorem pyIntBin_cases (l : List Bool) :
    pyIntBin l = .error (.valueError msgInvalidLiteral)
      ∨ ∃ v, pyIntBin l = .ok v := by
  unfold pyIntBin
  by_cases h : l.isEmpty <;> simp [h]

theorem parse_bit_string_cases (bs : List Bool) :
    (∃ d, parse_bit_string bs = .ok d)
    ∨ (∃ m, parse_bit_string bs = .error (.valueError m)
        ∧ (m = msgInvalidLiteral ∨ m = msgInvalidFormat ∨ m = msgIncomplete ∨
            m = msgChecksum)) := by
  rw [parse_bit_string]
  rcases pyIntBin_cases ((bs.take 32).take 8) with h0 | ⟨v0, h0⟩
  · rw [h0, except_bind_err]
    exact Or.inr ⟨msgInvalidLiteral, rfl, Or.inl rfl⟩
  rw [h0, except_bind_ok]
  rcases pyIntBin_cases (((bs.take 32).drop 8).take 8) with h1 | ⟨v1, h1⟩
  · rw [h1, except_bind_err]
    exact Or.inr ⟨msgInvalidLiteral, rfl, Or.inl rfl⟩
  rw [h1, except_bind_ok]
  rcases pyIntBin_cases (((bs.take 32).drop 16).take 8) with h2 | ⟨v2, h2⟩
  · rw [h2, except_bind_err]
    exact Or.inr ⟨msgInvalidLiteral, rfl, Or.inl rfl⟩
  rw [h2, except_bind_ok]
  rcases pyIntBin_cases (((bs.take 32).drop 24).take 8) with h3 | ⟨v3, h3⟩
  · rw [h3, except_bind_err]
    exact Or.inr ⟨msgInvalidLiteral, rfl, Or.inl rfl⟩
  rw [h3, except_bind_ok]
  by_cases hmagic : ¬(v0 = 70 ∧ v1 = 79 ∧ v2 = 76 ∧ v3 = 68)
  · rw [if_pos hmagic]
    exact Or.inr ⟨msgInvalidFormat, rfl, Or.inr (Or.inl rfl)⟩
  rw [if_neg hmagic]
  rcases pyIntBin_cases ((bs.drop 32).take 32) with hl | ⟨vl, hl⟩
  · rw [hl, except_bind_err]
    exact Or.inr ⟨msgInvalidLiteral, rfl, Or.inl rfl⟩
  rw [hl, except_bind_ok]
  by_cases hlen : (bs.drop 96).length < vl * 8
  · rw [if_pos hlen]
    exact Or.inr ⟨msgIncomplete, rfl, Or.inr (Or.inr (Or.inl rfl))⟩
  rw [if_neg hlen]
  rcases pyIntBin_cases ((bs.drop 64).take 32) with hcb | ⟨vc, hcb⟩
  · rw [hcb, except_bind_err]
    exact Or.inr ⟨msgInvalidLiteral, rfl, Or.inl rfl⟩
  rw [hcb, except_bind_ok]
  by_cases hcrc : crc32 (bitsToBytes ((bs.drop 96).take (vl * 8))) ≠ vc
  · rw [if_pos hcrc]
    exact Or.inr ⟨msgChecksum, rfl, Or.inr (Or.inr (Or.inr rfl))⟩
  · rw [if_neg hcrc]
    exact Or.inl ⟨_, rfl⟩

/-! ## Claim theorems -/

/-- C1: for every byte payload `p` (bytes `< 256`, length within the
spec's payload bound `2^32 - 1`) and every `width`, `height` with
`width*height*3 ≥ 96`, decoding the frame sequence produced by encoding
`p` with those dimensions returns exactly `p`:
`decode_pixels_to_data (list (encode_data_to_pixels p)) = ok p`. -/
theorem C1_round_trip (w h : Nat) (p : List Nat) (hcap : 96 ≤ w * h * 3)
    (hL : p.length < 2 ^ 32) (hb : ∀ b ∈ p, b < 256) :
    decode_pixels_to_data w h (encode_data_to_pixels w h p) = .ok p :=
  decode_encode w h p (by omega) hL hb

/-- Witness for C1 at `p = [104, 105]` (the bytes of "hi"), `8 × 8`. -/
theorem C1_round_trip_witness :
    96 ≤ 8 * 8 * 3 ∧ ([104, 105] : List Nat).length < 2 ^ 32
    ∧ (∀ b ∈ ([104, 105] : List Nat), b < 256)
    ∧ decode_pixels_to_data 8 8 (encode_data_to_pixels 8 8 [104, 105])
        = .ok [104, 105] :=
  ⟨by norm_num, by norm_num, by decide,
    C1_round_trip 8 8 [104, 105] (by norm_num) (by norm_num) (by decide)⟩

/-- C2 counterexample: with `width = 4`, `height = 4` (capacity
`48 < 96`) encoding does NOT fail — it produces 2 frames for the empty
payload, and decoding them even succeeds.  No `ConfigurationError` exists
anywhere in the code. -/
theorem C2_counterexample :
    (encode_data_to_pixels 4 4 []).length = 2
    ∧ decode_pixels_to_data 4 4 (encode_data_to_pixels 4 4 []) = .ok [] := by
  decide

/-- C2 amended: `encode_data_to_pixels` performs no capacity check.  For
any capacity `1 ≤ width*height*3 < 96` it yields
`ceil((96 + 8·len) / capacity)` frames without any error, and decoding
them returns the payload. -/
theorem C2_no_capacity_check (w h : Nat) (p : List Nat)
    (hc : 1 ≤ w * h * 3) (hcap : w * h * 3 < 96) (hL : p.length < 2 ^ 32)
    (hb : ∀ b ∈ p, b < 256) :
    (encode_data_to_pixels w h p).length
        = (96 + 8 * p.length + w * h * 3 - 1) / (w * h * 3)
    ∧ decode_pixels_to_data w h (encode_data_to_pixels w h p) = .ok p :=
  ⟨encode_count w h p (by omega) hL hb, decode_encode w h p (by omega) hL hb⟩

/-- Witness for C2's amended theorem at `4 × 4` (capacity 48),
`p = [1, 2, 3]`. -/
theorem C2_no_capacity_check_witness :
    1 ≤ 4 * 4 * 3 ∧ 4 * 4 * 3 < 96 ∧ ([1, 2, 3] : List Nat).length < 2 ^ 32
    ∧ (∀ b ∈ ([1, 2, 3] : List Nat), b < 256)
    ∧ ((encode_data_to_pixels 4 4 [1, 2, 3]).length
          = (96 + 8 * ([1, 2, 3] : List Nat).length + 4 * 4 * 3 - 1)
              / (4 * 4 * 3)
        ∧ decode_pixels_to_data 4 4 (encode_data_to_pixels 4 4 [1, 2, 3])
            = .ok [1, 2, 3]) :=
  ⟨by norm_num, by norm_num, by norm_num, by decide,
    C2_no_capacity_check 4 4 [1, 2, 3] (by norm_num) (by norm_num)
      (by norm_num) (by decide)⟩

/-- C3 counterexample: a bad magic marker and a checksum mismatch are
both reported by `retrieve` as the SAME exception kind
(`FileCorruptionError`, the generic corruption failure), distinguishable
only by message string — there is no distinct format-error outcome.  The
first input is an all-white frame (magic wrong); the second is an encode
of `[0]` with one payload channel corrupted across the threshold. -/
theorem C3_counterexample :
    retrieve 8 8 [List.replicate 64 ((255, 255, 255) : Pixel)]
      = .error (.fileCorruptionError
          ("Data corruption detected: " ++ msgInvalidFormat))
    ∧ retrieve 8 8 (setChannel (encode_data_to_pixels 8 8 [0]) 0 32 0 255)
      = .error (.fileCorruptionError
          ("Data corruption detected: " ++ msgChecksum)) := by
  decide

/-- C3 amended: the four decode failure modes are NOT distinct exception
kinds.  Every failure of `retrieve` is the single kind
`FileCorruptionError`: `"No frames found in video"` for empty input, and
`"Data corruption detected: " ++ m` otherwise, where the codec-level
`ValueError` message `m` is one of the four message strings (invalid
int literal for empty bit data, bad magic, incomplete data, checksum
mismatch).  The modes are distinguishable only by message text. -/
theorem C3_error_reporting (w h : Nat) (frames : List Frame) :
    (∃ d, retrieve w h frames = .ok d)
    ∨ retrieve w h frames
        = .error (.fileCorruptionError "No frames found in video")
    ∨ (∃ m, (m = msgInvalidLiteral ∨ m = msgInvalidFormat ∨
          m = msgIncomplete ∨ m = msgChecksum)
        ∧ retrieve w h frames
            = .error (.fileCorruptionError
                ("Data corruption detected: " ++ m))) := by
  unfold retrieve
  by_cases hemp : frames.isEmpty
  · rw [if_pos hemp]
    exact Or.inr (Or.inl rfl)
  · rw [if_neg hemp]
    rcases parse_bit_string_cases (decode_bits w h frames) with ⟨d, hd⟩ |
      ⟨m, hm, hmem⟩
    · left
      refine ⟨d, ?_⟩
      rw [show decode_pixels_to_data w h frames = .ok d from hd]
    · right; right
      refine ⟨m, hmem, ?_⟩
      rw [show decode_pixels_to_data w h frames
        = .error (.valueError m) from hm]

/-- C4 counterexample: corrupting a single channel across the 128
threshold does NOT always make decode fail.  Encoding `[104, 105]` at
`8 × 8` uses 112 of 192 bits; pixel 60 channel 0 carries a padding bit
written as 0.  Setting it to 255 crosses the threshold, yet decode
succeeds and returns the payload — no `IntegrityError` is raised. -/
theorem C4_counterexample :
    decode_pixels_to_data 8 8
        (setChannel (encode_data_to_pixels 8 8 [104, 105]) 0 60 0 255)
      = .ok [104, 105] := by
  decide

/-- C4 amended: corrupting a single channel across the 128 threshold
causes decode to fail with the checksum-mismatch error whenever the
corrupted channel carries a bit of the checksum field or of the payload
(bit positions `64 ≤ f*capacity + 3*k + ch < 96 + 8·len`).  Corruption of
padding bits is ignored (see the counterexample), and magic/length bits
produce other outcomes. -/
theorem C4_payload_region_tamper (w h : Nat) (p : List Nat)
    (hcap : 96 ≤ w * h * 3) (hL : p.length < 2 ^ 32)
    (hb : ∀ b ∈ p, b < 256) (f k ch v : Nat)
    (hf : f < (encode_data_to_pixels w h p).length) (hk : k < w * h)
    (hch : ch < 3)
    (hreg64 : 64 ≤ f * (w * h * 3) + (3 * k + ch))
    (hregHi : f * (w * h * 3) + (3 * k + ch) < 96 + 8 * p.length)
    (hcross : decide (128 ≤ v)
      = !decide (128 ≤ getChan
          (((encode_data_to_pixels w h p).getD f []).getD k (0, 0, 0)) ch)) :
    decode_pixels_to_data w h
        (setChannel (encode_data_to_pixels w h p) f k ch v)
      = .error (.valueError msgChecksum) := by
  obtain ⟨hset, hget⟩ := decode_bits_setChannel w h
    (encode_data_to_pixels w h p) (encode_frames_length w h p) f k ch v hf hk
    hch
  show parse_bit_string (decode_bits w h
    (setChannel (encode_data_to_pixels w h p) f k ch v)) = _
  rw [hset, decode_bits_encode w h p (by omega)]
  apply parse_prepare_pad_set p hL hb _ _ _ hreg64 hregHi
  rw [← decode_bits_encode w h p (by omega), hget]
  exact hcross

/-- Witness for C4's amended theorem: encode `[104, 105]` at `8 × 8`;
pixel 32 channel 0 carries payload bit 96 (the most significant bit of
byte 104, a 0 written as channel value 0); setting the channel to 200
crosses the threshold and decode fails with the checksum error. -/
theorem C4_payload_region_tamper_witness :
    96 ≤ 8 * 8 * 3 ∧ ([104, 105] : List Nat).length < 2 ^ 32
    ∧ (∀ b ∈ ([104, 105] : List Nat), b < 256)
    ∧ 0 < (encode_data_to_pixels 8 8 [104, 105]).length
    ∧ 32 < 8 * 8 ∧ 0 < 3
    ∧ 64 ≤ 0 * (8 * 8 * 3) + (3 * 32 + 0)
    ∧ 0 * (8 * 8 * 3) + (3 * 32 + 0) < 96 + 8 * ([104, 105] : List Nat).length
    ∧ decide (128 ≤ 200)
        = !decide (128 ≤ getChan
            (((encode_data_to_pixels 8 8 [104, 105]).getD 0 []).getD 32
              (0, 0, 0)) 0)
    ∧ decode_pixels_to_data 8 8
        (setChannel (encode_data_to_pixels 8 8 [104, 105]) 0 32 0 200)
      = .error (.valueError msgChecksum) :=
  ⟨by norm_num, by norm_num, by decide, by decide, by norm_num, by norm_num,
    by norm_num, by norm_num, by decide,
    C4_payload_region_tamper 8 8 [104, 105] (by norm_num) (by norm_num)
      (by decide) 0 32 0 200 (by decide) (by norm_num) (by norm_num)
      (by norm_num) (by norm_num) (by decide)⟩

/-- C5: the bit stream built by encoding is exactly, in order, the 32
bits of the ASCII bytes of "FOLD" (70, 79, 76, 68; most significant bit
first per byte), the 32-bit unsigned big-endian representation of the
payload length, the 32-bit unsigned representation of the CRC-32 of the
payload bytes only, then the payload's bits most-significant-bit first
per byte in original byte order. -/
theorem C5_bit_stream_layout (p : List Nat) (hL : p.length < 2 ^ 32)
    (hb : ∀ b ∈ p, b < 256) :
    prepare_bit_string p
      = natToBitsBE 8 70 ++ natToBitsBE 8 79 ++ natToBitsBE 8 76 ++
          natToBitsBE 8 68 ++ natToBitsBE 32 p.length ++
          natToBitsBE 32 (crc32 p) ++
          p.flatMap (fun b => natToBitsBE 8 b) := by
  rw [prepare_bit_string_eq,
    @pyFormatBits_eq_natToBitsBE 70 8 (by norm_num) (by norm_num),
    @pyFormatBits_eq_natToBitsBE 79 8 (by norm_num) (by norm_num),
    @pyFormatBits_eq_natToBitsBE 76 8 (by norm_num) (by norm_num),
    @pyFormatBits_eq_natToBitsBE 68 8 (by norm_num) (by norm_num),
    pyFormatBits_eq_natToBitsBE hL (by norm_num),
    pyFormatBits_eq_natToBitsBE (crc32_lt p hb) (by norm_num)]
  congr 1
  apply flatMap_congr'
  intro b hbm
  exact pyFormatBits_eq_natToBitsBE
    (by have := hb b hbm; norm_num; omega) (by norm_num)

/-- Witness for C5 at `p = [104, 105]`. -/
theorem C5_bit_stream_layout_witness :
    ([104, 105] : List Nat).length < 2 ^ 32
    ∧ (∀ b ∈ ([104, 105] : List Nat), b < 256)
    ∧ prepare_bit_string [104, 105]
        = natToBitsBE 8 70 ++ natToBitsBE 8 79 ++ natToBitsBE 8 76 ++
            natToBitsBE 8 68 ++ natToBitsBE 32 ([104, 105] : List Nat).length
            ++ natToBitsBE 32 (crc32 [104, 105]) ++
            ([104, 105] : List Nat).flatMap (fun b => natToBitsBE 8 b) :=
  ⟨by norm_num, by decide,
    C5_bit_stream_layout [104, 105] (by norm_num) (by decide)⟩

/-- C6: for frame sequences whose frames have the codec's `width*height`
cells, decode extracts bits by visiting the frames in input order and the
cells of each frame in row-major order, recovering 3 bits per cell by
thresholding each channel independently (`value ≥ 128` gives bit 1, any
value `< 128` gives bit 0) — arbitrary channel values are accepted, not
only 0 and 255. -/
theorem C6_threshold_extraction (w h : Nat) (frames : List Frame)
    (hlen : ∀ fr ∈ frames, fr.length = w * h) :
    decode_bits w h frames
      = frames.flatMap (fun fr => fr.flatMap (fun pix =>
          [decide (128 ≤ pix.1), decide (128 ≤ pix.2.1),
            decide (128 ≤ pix.2.2)])) := by
  apply flatMap_congr'
  intro fr hfr
  rw [fractal_frame_to_bits_eq w h fr (hlen fr hfr)]
  rfl

/-- Witness for C6 on a `2 × 2` frame holding arbitrary channel values
(130, 7, 200, 99, … — not just 0/255). -/
theorem C6_threshold_extraction_witness :
    (∀ fr ∈ [[((130, 7, 255) : Pixel), (0, 128, 127), (200, 1, 99),
        (255, 0, 3)]], fr.length = 2 * 2)
    ∧ decode_bits 2 2 [[((130, 7, 255) : Pixel), (0, 128, 127), (200, 1, 99),
        (255, 0, 3)]]
      = [[((130, 7, 255) : Pixel), (0, 128, 127), (200, 1, 99),
          (255, 0, 3)]].flatMap (fun fr => fr.flatMap (fun pix =>
          [decide (128 ≤ pix.1), decide (128 ≤ pix.2.1),
            decide (128 ≤ pix.2.2)])) :=
  ⟨by decide, C6_threshold_extraction 2 2 _ (by decide)⟩

/-- C7: every channel value of every cell of every frame produced by
encoding is exactly 0 or 255; no intermediate value is ever written. -/
theorem C7_channel_values (w h : Nat) (p : List Nat) (fr : Frame)
    (pix : Pixel) (hfr : fr ∈ encode_data_to_pixels w h p) (hpix : pix ∈ fr) :
    (pix.1 = 0 ∨ pix.1 = 255) ∧ (pix.2.1 = 0 ∨ pix.2.1 = 255) ∧
      (pix.2.2 = 0 ∨ pix.2.2 = 255) := by
  have hfr' : fr ∈ (chunkList (w * h * 3) (prepare_bit_string p)).map
      (bits_to_fractal_frame w h) := hfr
  obtain ⟨ch, _, rfl⟩ := List.mem_map.mp hfr'
  exact buildPixels_channels _ (w * h) 0 pix hpix

/-- Witness for C7: the first pixel of the first frame of an encode at
`4 × 4`. -/
theorem C7_channel_values_witness :
    ((encode_data_to_pixels 4 4 []).getD 0 ([] : Frame))
        ∈ encode_data_to_pixels 4 4 []
    ∧ ((0, 255, 0) : Pixel)
        ∈ ((encode_data_to_pixels 4 4 []).getD 0 ([] : Frame))
    ∧ ((((0, 255, 0) : Pixel).1 = 0 ∨ ((0, 255, 0) : Pixel).1 = 255)
      ∧ (((0, 255, 0) : Pixel).2.1 = 0 ∨ ((0, 255, 0) : Pixel).2.1 = 255)
      ∧ (((0, 255, 0) : Pixel).2.2 = 0 ∨ ((0, 255, 0) : Pixel).2.2 = 255)) :=
  ⟨by decide, by decide,
    C7_channel_values 4 4 []
      ((encode_data_to_pixels 4 4 []).getD 0 ([] : Frame))
      ((0, 255, 0) : Pixel) (by decide) (by decide)⟩

/-- C8 counterexample: encoding `[0]` at `8 × 8` yields one frame that
carries payload bits; removing it leaves no frames, and decode then fails
with the `int("", 2)` invalid-literal `ValueError` — not the
"Incomplete data" truncation error the claim requires. -/
theorem C8_counterexample :
    decode_pixels_to_data 8 8 ((encode_data_to_pixels 8 8 [0]).dropLast)
      = .error (.valueError msgInvalidLiteral)
    ∧ PyExc.valueError msgInvalidLiteral ≠ PyExc.valueError msgIncomplete := by
  decide

/-- C8 amended: when the encode output has at least two frames, removing
the last frame always makes decode fail with the "Incomplete data"
truncation error (every frame carries bit-stream bits, so removal never
succeeds); when the output is a single frame, removal leaves empty input,
which is reported as the empty-input/invalid-literal failure instead. -/
theorem C8_truncation_on_drop_last (w h : Nat) (p : List Nat)
    (hcap : 96 ≤ w * h * 3) (hL : p.length < 2 ^ 32)
    (hb : ∀ b ∈ p, b < 256)
    (hN : 2 ≤ (encode_data_to_pixels w h p).length) :
    decode_pixels_to_data w h ((encode_data_to_pixels w h p).dropLast)
      = .error (.valueError msgIncomplete) := by
  show parse_bit_string
    (decode_bits w h ((encode_data_to_pixels w h p).dropLast)) = _
  rw [decode_bits_encode_dropLast w h p (by omega)]
  apply parse_prepare_take p hL hb
  · rw [encode_length_frames] at hN
    calc (96 : Nat) ≤ w * h * 3 := hcap
      _ = 1 * (w * h * 3) := by ring
      _ ≤ ((chunkList (w * h * 3) (prepare_bit_string p)).length - 1)
            * (w * h * 3) := Nat.mul_le_mul_right _ (by omega)
  · exact chunkList_pred_mul_lt (by omega) _ _ (le_refl _) (prepare_ne_nil p)

/-- Witness for C8's amended theorem: 13 zero bytes at `8 × 8` need
200 bits, hence 2 frames; dropping the last frame yields the
"Incomplete data" error. -/
theorem C8_truncation_on_drop_last_witness :
    96 ≤ 8 * 8 * 3 ∧ (List.replicate 13 (0 : Nat)).length < 2 ^ 32
    ∧ (∀ b ∈ List.replicate 13 (0 : Nat), b < 256)
    ∧ 2 ≤ (encode_data_to_pixels 8 8 (List.replicate 13 0)).length
    ∧ decode_pixels_to_data 8 8
        ((encode_data_to_pixels 8 8 (List.replicate 13 0)).dropLast)
      = .error (.valueError msgIncomplete) :=
  ⟨by norm_num, by norm_num, by decide, by decide,
    C8_truncation_on_drop_last 8 8 (List.replicate 13 0) (by norm_num)
      (by norm_num) (by decide) (by decide)⟩

/-- C9: the number of frames encode yields equals
`ceil(bitstream_length / capacity)` with
`bitstream_length = 96 + 8·len(payload)` and `capacity = width*height*3`;
it is always at least one, and the empty payload yields exactly one frame
when `capacity ≥ 96`. -/
theorem C9_frame_count (w h : Nat) (p : List Nat) (hc : 1 ≤ w * h * 3)
    (hL : p.length < 2 ^ 32) (hb : ∀ b ∈ p, b < 256) :
    (encode_data_to_pixels w h p).length
        = (96 + 8 * p.length + w * h * 3 - 1) / (w * h * 3)
    ∧ 1 ≤ (encode_data_to_pixels w h p).length
    ∧ (p = [] → 96 ≤ w * h * 3 → (encode_data_to_pixels w h p).length = 1) := by
  have hcount := encode_count w h p (by omega) hL hb
  refine ⟨hcount, ?_, ?_⟩
  · rw [hcount, Nat.one_le_div_iff (by omega)]
    omega
  · intro hp hcap
    subst hp
    rw [hcount]
    simp only [List.length_nil]
    rw [show 96 + 8 * 0 + w * h * 3 - 1 = 95 + w * h * 3 from by omega,
      Nat.add_div_right _ (by omega), Nat.div_eq_of_lt (by omega)]

/-- Witness for C9 at `8 × 8` with the empty payload (one frame). -/
theorem C9_frame_count_witness :
    1 ≤ 8 * 8 * 3 ∧ ([] : List Nat).length < 2 ^ 32
    ∧ (∀ b ∈ ([] : List Nat), b < 256)
    ∧ ((encode_data_to_pixels 8 8 []).length
          = (96 + 8 * ([] : List Nat).length + 8 * 8 * 3 - 1) / (8 * 8 * 3)
        ∧ 1 ≤ (encode_data_to_pixels 8 8 []).length
        ∧ (([] : List Nat) = [] → 96 ≤ 8 * 8 * 3 →
            (encode_data_to_pixels 8 8 []).length = 1)) :=
  ⟨by norm_num, by norm_num, by decide,
    C9_frame_count 8 8 [] (by norm_num) (by norm_num) (by decide)⟩

/-- C10: every chunk taken from the bit string is non-empty, so every
frame yielded by encode carries at least one bit of the bit stream; and
for any encode output of two or more frames, removing the last frame
always removes real bit-stream bits (the bits recovered from the
remaining frames are strictly fewer than the bit stream's length). -/
theorem C10_no_pure_padding_frames (w h : Nat) (p : List Nat)
    (hc : 1 ≤ w * h * 3) :
    (∀ ch ∈ chunkList (w * h * 3) (prepare_bit_string p), ch ≠ [])
    ∧ (2 ≤ (encode_data_to_pixels w h p).length →
        (decode_bits w h ((encode_data_to_pixels w h p).dropLast)).length
          < (prepare_bit_string p).length) := by
  constructor
  · intro ch hch
    exact (chunkList_mem (by omega) _ _ (le_refl _) ch hch).2
  · intro hN
    rw [decode_bits_encode_dropLast w h p (by omega), List.length_take]
    have hlt := chunkList_pred_mul_lt (c := w * h * 3) (by omega) _
      (prepare_bit_string p) (le_refl _) (prepare_ne_nil p)
    omega

/-- Witness for C10 at `4 × 4` with a 3-byte payload (3 frames;
dropping the last loses bit-stream bits). -/
theorem C10_no_pure_padding_frames_witness :
    1 ≤ 4 * 4 * 3
    ∧ (∀ ch ∈ chunkList (4 * 4 * 3) (prepare_bit_string [1, 2, 3]), ch ≠ [])
    ∧ (2 ≤ (encode_data_to_pixels 4 4 [1, 2, 3]).length →
        (decode_bits 4 4 ((encode_data_to_pixels 4 4 [1, 2, 3]).dropLast)).length
          < (prepare_bit_string [1, 2, 3]).length) :=
  ⟨by norm_num, (C10_no_pure_padding_frames 4 4 [1, 2, 3] (by norm_num)).1,
    (C10_no_pure_padding_frames 4 4 [1, 2, 3] (by norm_num)).2⟩

end FOLD
